import Mathlib

/-
Verification of the knapsack branch-and-bound core
(sheets/02_bnb/knapsack_bnb: relaxation.py, heuristics.py, branching_strategy.py).

Numbers are modelled as rationals.  Python code that can raise an exception
(ZeroDivisionError in the value/weight ratio, IndexError on a missing item)
is modelled with `Option`: `none` is the raised exception.  Python's stable
`sorted` is modelled by a stable insertion sort.
-/

namespace KnapsackBnB

/-- Modelled from the spec: `Item` from instance.py (not in src) is immutable
value data with a value and a weight; equality is componentwise. -/
structure Item where
  value : ℚ
  weight : ℚ
deriving DecidableEq, Repr

/-- Modelled from the spec: `Instance` from instance.py (not in src): an
ordered sequence of items plus a capacity. -/
structure Instance where
  items : List Item
  capacity : ℚ
deriving DecidableEq, Repr

/-- Modelled from the spec: a validated instance has non-negative weights and
values and a non-negative capacity. -/
def Instance.valid (inst : Instance) : Prop :=
  (∀ it ∈ inst.items, 0 ≤ it.value ∧ 0 ≤ it.weight) ∧ 0 ≤ inst.capacity

instance (inst : Instance) : Decidable inst.valid := by
  unfold Instance.valid; infer_instance

/-- A `BranchingDecisions` vector: each slot is fixed to 0 (`some false`),
fixed to 1 (`some true`) or undecided (`none`). -/
abbrev BranchingDecisions := List (Option Bool)

/-- Modelled from the spec: `split_on(i)` from branching_decisions.py (not in
src) returns exactly two new decision vectors, identical to the input except
that slot `i` is 0 in one and 1 in the other. -/
def splitOn (d : BranchingDecisions) (i : ℕ) : List BranchingDecisions :=
  [d.set i (some false), d.set i (some true)]

/-- Weight of a 0/1 selection given as booleans, `sum(w_i for chosen i)`. -/
def boolWeight (inst : Instance) (x : List Bool) : ℚ :=
  ((inst.items.zip x).map fun p => if p.2 then p.1.weight else 0).sum

/-- Value of a 0/1 selection given as booleans. -/
def boolValue (inst : Instance) (x : List Bool) : ℚ :=
  ((inst.items.zip x).map fun p => if p.2 then p.1.value else 0).sum

/-- A 0/1 completion agrees with every fixed entry of the decisions vector. -/
def consistent (dec : BranchingDecisions) (x : List Bool) : Prop :=
  ∀ p ∈ dec.zip x, ∀ b, p.1 = some b → p.2 = b

instance (dec : BranchingDecisions) (x : List Bool) : Decidable (consistent dec x) := by
  unfold consistent; infer_instance

/-- Weighted weight of a fractional selection,
`sum(item.weight * sel for item, sel in zip(items, selection))`. -/
def selWeight (inst : Instance) (sel : List ℚ) : ℚ :=
  ((inst.items.zip sel).map fun p => p.1.weight * p.2).sum

/-- Weighted value of a fractional selection,
`sum(item.value * sel for item, sel in zip(items, selection))`. -/
def selValue (inst : Instance) (sel : List ℚ) : ℚ :=
  ((inst.items.zip sel).map fun p => p.1.value * p.2).sum

/-- Modelled from the spec: `obeys_capacity()` of relaxed_solution.py (not in
src): the weighted selection weight is within capacity. -/
def obeysCapacity (inst : Instance) (sel : List ℚ) : Bool :=
  decide (selWeight inst sel ≤ inst.capacity)

/-- Modelled from the spec: `is_integral()` of relaxed_solution.py (not in
src): every selection entry is 0.0 or 1.0. -/
def isIntegral (sel : List ℚ) : Bool :=
  sel.all fun q => decide (q = 0 ∨ q = 1)

/-- Python `int()` truncation toward zero on a rational. -/
def pyInt (q : ℚ) : ℤ := q.num.tdiv (q.den : ℤ)

/-- Result of a relaxation solver: either the distinguished infeasible
solution (modelled from the spec: `RelaxedSolution.create_infeasible`, file
relaxed_solution.py not in src), or a selection plus an upper bound.
`α` is the entry type of the selection. -/
inductive RelaxResult (α : Type) where
  | infeasible : RelaxResult α
  | sol (selection : List α) (upper : ℚ) : RelaxResult α
deriving DecidableEq, Repr

/-- The upper bound of a relaxation result, the infeasible solution counting
as minus infinity. -/
def RelaxResult.ubound {α : Type} : RelaxResult α → WithBot ℚ
  | .infeasible => ⊥
  | .sol _ u => (u : WithBot ℚ)

/-- Total weight of the items fixed to 1,
`sum(item.weight for item, x in zip(instance.items, decisions) if x == 1)`. -/
def fixedOneWeight (inst : Instance) (dec : BranchingDecisions) : ℚ :=
  (((inst.items.zip dec).filter fun p => p.2 = some true).map fun p => p.1.weight).sum

/-- VeryNaiveRelaxationSolver.solve: selection is 1.0 for every entry not
fixed to 0, and the bound is the weighted value; capacity is ignored. -/
def VeryNaiveRelaxationSolver.solve (inst : Instance) (dec : BranchingDecisions) :
    List ℚ × ℚ :=
  let selection : List ℚ := dec.map fun x => if x = some false then 0 else 1
  (selection, selValue inst selection)

/-- NaiveRelaxationSolver.solve: as the very naive solver, but first returns
the infeasible solution when the items fixed to 1 exceed capacity. -/
def NaiveRelaxationSolver.solve (inst : Instance) (dec : BranchingDecisions) :
    RelaxResult ℚ :=
  if fixedOneWeight inst dec > inst.capacity then .infeasible
  else
    let selection : List ℚ := dec.map fun x => if x = some false then 0 else 1
    .sol selection (selValue inst selection)

/-! Machinery of `MyRelaxationSolver.solve`: the Python code builds a dict
keyed by the `Item` objects themselves (`items_dict = {item: x for item, x in
zip(instance.items, decisions)}`), so equal items share one dict slot.  The
dict is modelled as an association list with Python's insertion-order
semantics: writing an existing key updates it in place, a new key is appended.
Dict values are `Option ℚ`: `none` is Python `None`, a decision 0/1 is
`some 0` / `some 1`, and the fractional assignments written later are
`some q`. -/

/-- Insertion-ordered dict write. -/
def dictSet (d : List (Item × Option ℚ)) (k : Item) (v : Option ℚ) :
    List (Item × Option ℚ) :=
  if d.any fun p => p.1 = k then d.map fun p => if p.1 = k then (p.1, v) else p
  else d ++ [(k, v)]

/-- Dict lookup (first matching key). -/
def dictGet (d : List (Item × Option ℚ)) (k : Item) : Option ℚ :=
  match d.find? fun p => p.1 = k with
  | some p => p.2
  | none => none

/-- Encoding of a decision slot as a Python dict value. -/
def decVal : Option Bool → Option ℚ
  | none => none
  | some false => some 0
  | some true => some 1

/-- Stable insertion of `a` into a list sorted descending by the key `k`:
`a` goes before the first element with a strictly smaller key, hence after
every earlier element with an equal key (Python's `sorted` is stable). -/
def insertDesc {α : Type} (k : α → ℚ) (a : α) : List α → List α
  | [] => [a]
  | b :: l => if k b < k a then a :: b :: l else b :: insertDesc k a l

/-- Stable sort, descending by the key `k`; models
`sorted(xs, key=k, reverse=True)`. -/
def sortDesc {α : Type} (k : α → ℚ) (l : List α) : List α :=
  l.foldl (fun acc a => insertDesc k a acc) []

/-- The ratio key of `sort_by_ratio` in MyRelaxationSolver.solve:
`item.value / item.weight` (raises ZeroDivisionError on weight 0, handled at
the call site). -/
def density (it : Item) : ℚ := it.value / it.weight

/-- One step of the greedy loop of MyRelaxationSolver.solve over the sorted
unfixed items.  State: (weights_sum, values_sum, end_reached, items_dict). -/
def myGreedyStep (adjustedCap : ℚ) (st : ℚ × ℚ × Bool × List (Item × Option ℚ))
    (it : Item) : ℚ × ℚ × Bool × List (Item × Option ℚ) :=
  let ws := st.1
  let vs := st.2.1
  let er := st.2.2.1
  let d := st.2.2.2
  if er then (ws, vs, er, dictSet d it (some 0))
  else if ws + it.weight > adjustedCap then
    let x := (adjustedCap - ws) / it.weight
    (ws, vs + x * it.value, true, dictSet d it (some x))
  else (ws + it.weight, vs + it.value, false, dictSet d it (some 1))

/-- Classification step of MyRelaxationSolver.solve: sorts each item into the
(unfixed, prohibited, enforced) triple according to its dict entry. -/
def classifyStep (dict0 : List (Item × Option ℚ))
    (c : List Item × List Item × List Item) (it : Item) :
    List Item × List Item × List Item :=
  match dictGet dict0 it with
  | none => (c.1 ++ [it], c.2.1, c.2.2)
  | some q =>
    if q = 0 then (c.1, c.2.1 ++ [it], c.2.2)
    else if q = 1 then (c.1, c.2.1, c.2.2 ++ [it])
    else c

/-- MyRelaxationSolver.solve.  `none` models the ZeroDivisionError raised by
`sorted(key=sort_by_ratio)` when an unfixed item has weight 0. -/
def MyRelaxationSolver.solve (inst : Instance) (dec : BranchingDecisions) :
    Option (RelaxResult (Option ℚ)) :=
  let used := fixedOneWeight inst dec
  if used > inst.capacity then some .infeasible
  else
    let dict0 : List (Item × Option ℚ) :=
      (inst.items.zip dec).foldl (fun d p => dictSet d p.1 (decVal p.2)) []
    let cls := inst.items.foldl (classifyStep dict0) ([], [], [])
    let unfixedItems := cls.1
    let enforcedItems := cls.2.2
    if unfixedItems.any fun it => it.weight = 0 then none
    else
      let sortedItems := sortDesc density unfixedItems
      let valuesSum0 := (enforcedItems.map Item.value).sum
      let adjustedCap := inst.capacity - (enforcedItems.map Item.weight).sum
      let fin := sortedItems.foldl (myGreedyStep adjustedCap) (0, valuesSum0, false, dict0)
      some (.sol (fin.2.2.2.map fun p => p.2) fin.2.1)

/-! Heuristics (heuristics.py).  `MyHeuristic.search` can mutate the selection
of its input `RelaxedSolution` in place (`adj_selection = relaxed.selection`
aliases, and the rounding branch assigns into it), so the embedding passes the
state explicitly: it returns the produced candidates (or `none` for a raised
IndexError) together with the post-call state of the input's
(selection, upper_bound). -/

/-- A produced heuristic solution: (selection, upper_bound). -/
abbrev HSol := List ℚ × ℚ

/-- MyHeuristic.search.  First component: the returned tuple of candidates,
`none` when the rounding branch raises an IndexError
(`instance.items[i]` with `i` past the end).  Second component: the state of
the input's (selection, upper_bound) after the call. -/
def MyHeuristic.search (inst : Instance) (sel : List ℚ) (ub : ℚ) :
    Option (List HSol) × (List ℚ × ℚ) :=
  if ¬ obeysCapacity inst sel then (some [], (sel, ub))
  else if isIntegral sel then (some [(sel, ub)], (sel, ub))
  else
    -- zero out the first entry with int(x) != x (if any); the loop breaks
    -- after it, so at most this one entry is assigned
    match sel.findIdx? fun q => decide (((pyInt q : ℚ)) ≠ q) with
    | some i =>
      if hi : i < inst.items.length then
        let ub1 := ub - sel.getD i 0 * (inst.items.get ⟨i, hi⟩).value
        let sel1 := sel.set i 0
        -- the best-item scan is a no-op: `adj_selection[i] is None` is never
        -- true for numeric entries, so best_idx stays 0
        -- `adj_selection[best_idx] = 1` runs before `items[best_idx]` is
        -- read, so the mutation is visible even when that read raises
        if h0 : 0 < inst.items.length then
          (some [(sel1.set 0 1, ub1 + (inst.items.get ⟨0, h0⟩).value)],
            (sel1.set 0 1, ub))
        else (none, (sel1.set 0 1, ub))
      else (none, (sel, ub))
    | none =>
      -- no fractional entry found: only `adj_selection[0] = 1` happens
      if h0 : 0 < inst.items.length then
        (some [(sel.set 0 1, ub + (inst.items.get ⟨0, h0⟩).value)],
          (sel.set 0 1, ub))
      else (none, (sel.set 0 1, ub))

/-! Branching strategies (branching_strategy.py).  `BnBNode` is modelled from
the spec (bnb_nodes.py is not in src): it bundles the decisions, the relaxed
solution's upper bound and an optional heuristic solution; the instance is a
separate argument since every solution in a node refers to the one instance
being solved. -/

/-- Modelled from the spec: a BnB tree node (bnb_nodes.py not in src). -/
structure BnBNode where
  branching_decisions : BranchingDecisions
  relaxed_upper_bound : ℚ
  heuristic_solution : Option HSol
deriving DecidableEq, Repr

/-- FirstUndecidedBranchingStrategy.make_branching_decisions: split on the
smallest undecided index, or return the empty tuple if all are fixed. -/
def FirstUndecidedBranchingStrategy.make (node : BnBNode) :
    List BranchingDecisions :=
  match node.branching_decisions.findIdx? fun v => decide (v = none) with
  | some i => splitOn node.branching_decisions i
  | none => []

/-- One step of the max-ratio scan in MyBranchingStrategy: state is
(max_val, idx); a pair ((i, item), x) updates it when the slot is undecided,
the heuristic selection entry is 0 (the `x == None` case never fires for
numeric entries), the ratio strictly beats the running maximum, and the item
fits next to the weight already enforced to 1. -/
def myBranchStep (inst : Instance) (dec : BranchingDecisions) (enforcedW : ℚ)
    (st : ℚ × ℕ) (p : (ℕ × Item) × ℚ) : ℚ × ℕ :=
  if dec.getD p.1.1 (some false) = none ∧ p.2 = 0 ∧ density p.1.2 > st.1 ∧
      p.1.2.weight + enforcedW ≤ inst.capacity then
    (density p.1.2, p.1.1)
  else st

/-- The zipped scan list of MyBranchingStrategy:
`zip(enumerate(instance.items), heuristic_selection)`. -/
def branchPairs (inst : Instance) (hsel : List ℚ) : List ((ℕ × Item) × ℚ) :=
  (inst.items.enum).zip hsel

/-- MyBranchingStrategy.make_branching_decisions.  `none` models the
ZeroDivisionError raised when the scan evaluates `value / weight` on a
zero-weight item (the division is evaluated whenever the first two conjuncts
hold, before the comparison's outcome matters). -/
def MyBranchingStrategy.make (inst : Instance) (node : BnBNode) :
    Option (List BranchingDecisions) :=
  match node.heuristic_solution with
  | some hs =>
    if hs.2 ≥ (pyInt node.relaxed_upper_bound : ℚ) then some []
    else if (branchPairs inst hs.1).any fun p =>
        decide (node.branching_decisions.getD p.1.1 (some false) = none) &&
        decide (p.2 = 0) && decide (p.1.2.weight = 0) then none
    else
      let enforcedW := fixedOneWeight inst node.branching_decisions
      let sc := (branchPairs inst hs.1).foldl
        (myBranchStep inst node.branching_decisions enforcedW) (0, 0)
      if sc.2 ≠ 0 then some (splitOn node.branching_decisions sc.2)
      else some (FirstUndecidedBranchingStrategy.make node)
  | none => some (FirstUndecidedBranchingStrategy.make node)


/-- Sorted descending by the key `k`. -/
def SortedDown {α : Type} (k : α → ℚ) (l : List α) : Prop :=
  List.Pairwise (fun x y => k y ≤ k x) l

/-- The value of the fractional greedy fill over a list of items with a
remaining capacity `c`: items are taken fully while they fit; the first item
that does not fit contributes the fractional part `c / weight * value` and
ends the fill. -/
def greedy (L : List Item) (c : ℚ) : ℚ :=
  match L with
  | [] => 0
  | it :: L2 => if it.weight ≤ c then it.value + greedy L2 (c - it.weight)
                else c / it.weight * it.value

/-- Weighted dot product of an item attribute against an assignment list. -/
def dotf (f : Item → ℚ) (L : List Item) (ys : List ℚ) : ℚ :=
  ((L.zip ys).map fun p => f p.1 * p.2).sum

/-- The chosen-or-not flag of an undecided slot, recovered from the filtered
pair list by item lookup. -/
def chooseFn (P : List ((Item × Option Bool) × Bool)) (it : Item) : Bool :=
  ((P.find? fun p => p.1.1 = it).map fun p => p.2).getD false

/-- A pair ((i, item), x) of the branching scan qualifies when slot i is
undecided, the heuristic selection entry x is 0, and the item fits next to
the weight already enforced to 1 (the ratio threshold is kept separate). -/
def branchQualifies (inst : Instance) (dec : BranchingDecisions) (enfW : ℚ)
    (p : (ℕ × Item) × ℚ) : Prop :=
  dec.getD p.1.1 (some false) = none ∧ p.2 = 0 ∧
  p.1.2.weight + enfW ≤ inst.capacity

/-- The undecided (item, original index) pairs of a decisions vector. -/
def taggedUnfixed (inst : Instance) (dec : BranchingDecisions) :
    List (Item × ℕ) :=
  ((inst.items.enum.zip dec).filter fun p => p.2 = none).map
    fun p => (p.1.2, p.1.1)

/-- Modelled from the claim's wording: each undecided pair is set to 1.0
while its weight fits the remaining capacity, the first overflowing pair gets
the fractional value (remaining capacity / weight), and every later pair is
set to 0.0. -/
def greedyAssign : List (Item × ℕ) → ℚ → List ((Item × ℕ) × ℚ)
  | [], _ => []
  | p :: T2, c =>
    if p.1.weight ≤ c then (p, 1) :: greedyAssign T2 (c - p.1.weight)
    else (p, c / p.1.weight) :: T2.map fun q => (q, 0)

/-- The (item, value) writes performed by the greedy loop of
MyRelaxationSolver.solve, in loop order. -/
def greedyWrites : List Item → ℚ → List (Item × ℚ)
  | [], _ => []
  | it :: L2, c =>
    if it.weight ≤ c then (it, 1) :: greedyWrites L2 (c - it.weight)
    else (it, c / it.weight) :: L2.map fun q => (q, 0)

/-- Stable order on the undecided tagged pairs used by
MyRelaxationSolver.solve: descending ratio, original order on ties. -/
def myFracOrder (inst : Instance) (dec : BranchingDecisions) :
    List (Item × ℕ) :=
  sortDesc (fun p => density p.1) (taggedUnfixed inst dec)

/-- The result of applying a list of distinct-key writes to one dict entry. -/
def applyWrites (ws : List (Item × ℚ)) (e : Item × Option ℚ) :
    Item × Option ℚ :=
  match ws.find? fun w => w.1 = e.1 with
  | some w => (e.1, some w.2)
  | none => e

/-! General lemmas and claim theorems. -/

/-- Elements of the unfixed component of the classification fold come from
the initial accumulator or the traversed items. -/
theorem classify_unfixed_mem (dict0 : List (Item × Option ℚ)) :
    ∀ (items : List Item) (acc : List Item × List Item × List Item),
      ∀ it ∈ (items.foldl (classifyStep dict0) acc).1, it ∈ acc.1 ∨ it ∈ items := by
  intro items
  induction items with
  | nil => intro acc it h; exact Or.inl h
  | cons a t ih =>
    intro acc it h
    rcases ih (classifyStep dict0 acc a) it h with h1 | h1
    · unfold classifyStep at h1
      rcases hd : dictGet dict0 a with _ | q
      · rw [hd] at h1
        simp only [List.mem_append, List.mem_singleton] at h1
        rcases h1 with h2 | h2
        · exact Or.inl h2
        · exact Or.inr (h2 ▸ List.mem_cons_self a t)
      · rw [hd] at h1
        by_cases hq0 : q = 0
        · simp only [hq0, if_pos rfl] at h1; exact Or.inl h1
        · by_cases hq1 : q = 1
          · simp only [if_neg hq0, hq1, if_pos rfl] at h1; exact Or.inl h1
          · simp only [if_neg hq0, if_neg hq1] at h1; exact Or.inl h1
    · exact Or.inr (List.mem_cons_of_mem a h1)

/-- C9 (amended): when every item weight is positive, MyRelaxationSolver and
MyBranchingStrategy never raise ZeroDivisionError: both return a value. -/
theorem no_division_by_zero_on_positive_weights (inst : Instance) (node : BnBNode)
    (hw : ∀ it ∈ inst.items, 0 < it.weight) :
    (MyRelaxationSolver.solve inst node.branching_decisions).isSome ∧
    (MyBranchingStrategy.make inst node).isSome := by
  constructor
  · unfold MyRelaxationSolver.solve
    by_cases h1 : fixedOneWeight inst node.branching_decisions > inst.capacity
    · simp [h1]
    · simp only [if_neg h1]
      have hany : ((inst.items.foldl
          (classifyStep ((inst.items.zip node.branching_decisions).foldl
            (fun d p => dictSet d p.1 (decVal p.2)) [])) ([], [], [])).1.any
            fun it => it.weight = 0) = false := by
        rw [List.any_eq_false]
        intro it hit
        rcases classify_unfixed_mem _ inst.items ([], [], []) it hit with h | h
        · simp at h
        · have := hw it h
          simp only [decide_eq_true_eq]
          intro h0
          rw [h0] at this
          exact lt_irrefl 0 this
      simp [hany]
  · unfold MyBranchingStrategy.make
    rcases node.heuristic_solution with _ | hs
    · simp
    · simp only
      by_cases h1 : hs.2 ≥ (pyInt node.relaxed_upper_bound : ℚ)
      · simp [h1]
      · have hany : ((branchPairs inst hs.1).any fun p =>
            decide (node.branching_decisions.getD p.1.1 (some false) = none) &&
            decide (p.2 = 0) && decide (p.1.2.weight = 0)) = false := by
          rw [List.any_eq_false]
          intro p hp
          have hmem : p.1 ∈ inst.items.enum := (List.of_mem_zip hp).1
          have hit : p.1.2 ∈ inst.items := by
            have := List.snd_mem_of_mem_enum hmem
            exact this
          have hwp := hw p.1.2 hit
          simp only [Bool.and_eq_true, decide_eq_true_eq, not_and]
          intro _ h0
          rw [h0] at hwp
          exact lt_irrefl 0 hwp
        rw [if_neg h1, if_neg (by rw [hany]; exact Bool.false_ne_true)]
        split <;> simp

/-- C6 (amended): the naive and fractional solvers return the distinguished
infeasible solution when the items fixed to 1 exceed capacity (its bound is
minus infinity); the very naive solver performs no such check. -/
theorem naive_and_my_infeasible_on_fixed_overflow (inst : Instance)
    (dec : BranchingDecisions) (h : fixedOneWeight inst dec > inst.capacity) :
    NaiveRelaxationSolver.solve inst dec = .infeasible ∧
    MyRelaxationSolver.solve inst dec = some .infeasible ∧
    (NaiveRelaxationSolver.solve inst dec).ubound = ⊥ := by
  refine ⟨?_, ?_, ?_⟩
  · unfold NaiveRelaxationSolver.solve; rw [if_pos h]
  · unfold MyRelaxationSolver.solve; rw [if_pos h]
  · unfold NaiveRelaxationSolver.solve; rw [if_pos h]; rfl

/-- C10: FirstUndecidedBranchingStrategy returns the empty sequence exactly
when no slot is undecided; otherwise it splits on the smallest undecided
index i, returning exactly two children of the parent's length that differ
from the parent only at i, one fixing it to 0 and the other to 1.
(split_on is modelled from the spec; branching_decisions.py is not in src.) -/
theorem firstUndecided_branching_correct (node : BnBNode) :
    (FirstUndecidedBranchingStrategy.make node = [] ↔
      ∀ v ∈ node.branching_decisions, v ≠ none) ∧
    ∀ i : ℕ, node.branching_decisions[i]? = some none →
      (∀ j : ℕ, j < i → node.branching_decisions[j]? ≠ some none) →
      FirstUndecidedBranchingStrategy.make node =
        [node.branching_decisions.set i (some false),
          node.branching_decisions.set i (some true)] ∧
      (FirstUndecidedBranchingStrategy.make node).length = 2 ∧
      (node.branching_decisions.set i (some false)).length =
        node.branching_decisions.length ∧
      (node.branching_decisions.set i (some true)).length =
        node.branching_decisions.length ∧
      (node.branching_decisions.set i (some false))[i]? = some (some false) ∧
      (node.branching_decisions.set i (some true))[i]? = some (some true) ∧
      ∀ j : ℕ, j ≠ i →
        (node.branching_decisions.set i (some false))[j]? =
          node.branching_decisions[j]? ∧
        (node.branching_decisions.set i (some true))[j]? =
          node.branching_decisions[j]? := by
  constructor
  · unfold FirstUndecidedBranchingStrategy.make
    rcases hf : node.branching_decisions.findIdx? fun v => decide (v = none) with _ | i
    · simp only [List.findIdx?_eq_none_iff] at hf
      simp only [true_iff]
      intro v hv
      have := hf v hv
      simpa using this
    · rw [List.findIdx?_eq_some_iff_getElem] at hf
      obtain ⟨hlt, hp, _⟩ := hf
      simp only [decide_eq_true_eq] at hp
      simp only [splitOn]
      constructor
      · intro hcontra; exact absurd hcontra (by simp)
      · intro hall
        exact absurd hp (hall _ (List.getElem_mem hlt))
  · intro i hi hmin
    obtain ⟨hlt, hget⟩ := List.getElem?_eq_some_iff.mp hi
    have hfind : (node.branching_decisions.findIdx? fun v => decide (v = none)) =
        some i := by
      rw [List.findIdx?_eq_some_iff_getElem]
      refine ⟨hlt, by simp [hget], ?_⟩
      intro j hji
      have hjlt : j < node.branching_decisions.length := lt_trans hji hlt
      have := hmin j hji
      simp only [decide_eq_true_eq]
      intro hcontra
      exact this (by rw [List.getElem?_eq_getElem hjlt, hcontra])
    have hmk : FirstUndecidedBranchingStrategy.make node =
        [node.branching_decisions.set i (some false),
          node.branching_decisions.set i (some true)] := by
      unfold FirstUndecidedBranchingStrategy.make
      rw [hfind]
      rfl
    refine ⟨hmk, by rw [hmk]; rfl, List.length_set _ _ _, List.length_set _ _ _,
      ?_, ?_, ?_⟩
    · rw [List.getElem?_set_self', List.getElem?_eq_getElem hlt]; rfl
    · rw [List.getElem?_set_self', List.getElem?_eq_getElem hlt]; rfl
    · intro j hj
      exact ⟨List.getElem?_set_ne (fun h => hj h.symm) ,
        List.getElem?_set_ne (fun h => hj h.symm)⟩

/-- C8 (amended): MyHeuristic.search never reassigns the input's upper bound
attribute, and leaves the input selection unchanged on the non-rounding
branches (capacity violated, or already integral); the rounding branch
mutates the selection in place. -/
theorem search_frame_conditions (inst : Instance) (sel : List ℚ) (ub : ℚ) :
    (MyHeuristic.search inst sel ub).2.2 = ub ∧
    (obeysCapacity inst sel = false → (MyHeuristic.search inst sel ub).2 = (sel, ub)) ∧
    (obeysCapacity inst sel = true → isIntegral sel = true →
      (MyHeuristic.search inst sel ub).2 = (sel, ub)) := by
  unfold MyHeuristic.search
  by_cases h1 : obeysCapacity inst sel
  · by_cases h2 : isIntegral sel
    · simp [h1, h2]
    · simp only [h1, h2, Bool.true_eq_false, not_true_eq_false, if_neg,
        Bool.false_eq_true, if_false, Bool.not_true]
      refine ⟨?_, ?_, ?_⟩
      · rcases hf : sel.findIdx? fun q => decide (((pyInt q : ℚ)) ≠ q) with _ | i
        · simp only
          split <;> (try split) <;> rfl
        · simp only
          split <;> (try split) <;> rfl
      · intro hc; exact hc.elim
      · intro _ hc; exact hc.elim
  · simp only [Bool.not_eq_true] at h1
    simp [h1]

/-- The max-ratio scan of MyBranchingStrategy either leaves its state alone
(when no qualifying pair strictly beats the running maximum) or ends at some
qualifying pair whose ratio strictly beats the start and is maximal among all
qualifying pairs. -/
theorem branchFold_char (inst : Instance) (dec : BranchingDecisions) (enfW : ℚ) :
    ∀ (L : List ((ℕ × Item) × ℚ)) (m₀ : ℚ) (i₀ : ℕ),
      (L.foldl (myBranchStep inst dec enfW) (m₀, i₀) = (m₀, i₀) ∧
        ∀ p ∈ L, branchQualifies inst dec enfW p → density p.1.2 ≤ m₀)
      ∨ (∃ p ∈ L, branchQualifies inst dec enfW p ∧ m₀ < density p.1.2 ∧
          L.foldl (myBranchStep inst dec enfW) (m₀, i₀) = (density p.1.2, p.1.1) ∧
          ∀ q ∈ L, branchQualifies inst dec enfW q →
            density q.1.2 ≤ density p.1.2) := by
  intro L
  induction L with
  | nil => intro m₀ i₀; exact Or.inl ⟨rfl, by simp⟩
  | cons a t ih =>
    intro m₀ i₀
    rw [List.foldl_cons]
    by_cases hc : branchQualifies inst dec enfW a ∧ m₀ < density a.1.2
    · have hstep : myBranchStep inst dec enfW (m₀, i₀) a =
          (density a.1.2, a.1.1) := by
        obtain ⟨⟨h1, h2, h4⟩, h3⟩ := hc
        unfold myBranchStep
        rw [if_pos ⟨h1, h2, h3, h4⟩]
      rw [hstep]
      rcases ih (density a.1.2) a.1.1 with ⟨heq, hall⟩ | ⟨p, hp, hq, hm, heq, hall⟩
      · refine Or.inr ⟨a, List.mem_cons_self a t, hc.1, hc.2, heq, ?_⟩
        intro q hq hquala
        rcases List.mem_cons.mp hq with rfl | hqt
        · exact le_refl _
        · exact hall q hqt hquala
      · refine Or.inr ⟨p, List.mem_cons_of_mem a hp, hq, lt_trans hc.2 hm, heq, ?_⟩
        intro q hqm hqq
        rcases List.mem_cons.mp hqm with rfl | hqt
        · exact le_of_lt hm
        · exact hall q hqt hqq
    · have hstep : myBranchStep inst dec enfW (m₀, i₀) a = (m₀, i₀) := by
        unfold myBranchStep
        rw [if_neg]
        intro ⟨h1, h2, h3, h4⟩
        exact hc ⟨⟨h1, h2, h4⟩, h3⟩
      rw [hstep]
      rcases ih m₀ i₀ with ⟨heq, hall⟩ | ⟨p, hp, hq, hm, heq, hall⟩
      · refine Or.inl ⟨heq, ?_⟩
        intro q hqm hqq
        rcases List.mem_cons.mp hqm with rfl | hqt
        · exact le_of_not_lt fun hlt => hc ⟨hqq, hlt⟩
        · exact hall q hqt hqq
      · refine Or.inr ⟨p, List.mem_cons_of_mem a hp, hq, hm, heq, ?_⟩
        intro q hqm hqq
        rcases List.mem_cons.mp hqm with rfl | hqt
        · exact le_trans (le_of_not_lt fun hlt => hc ⟨hqq, hlt⟩) (le_of_lt hm)
        · exact hall q hqt hqq

/-- C5 (amended): on a node carrying a heuristic solution (entries numeric,
ratios defined where scanned), MyBranchingStrategy.make_branching_decisions
returns the empty sequence iff the heuristic objective is at least the
integer part of the relaxed bound; otherwise, among undecided indices whose
heuristic selection entry IS 0 (items the heuristic excludes) with strictly
positive value/weight ratio and weight fitting next to the enforced-to-1
weight, it splits on one of maximal ratio; when no index qualifies it falls
back to first-undecided branching. -/
theorem myBranching_characterization (inst : Instance) (node : BnBNode)
    (hsel : List ℚ) (hub : ℚ)
    (hheur : node.heuristic_solution = some (hsel, hub))
    (hnz : ∀ p ∈ branchPairs inst hsel,
      node.branching_decisions.getD p.1.1 (some false) = none → p.2 = 0 →
      p.1.2.weight ≠ 0) :
    (hub ≥ ((pyInt node.relaxed_upper_bound : ℤ) : ℚ) →
      MyBranchingStrategy.make inst node = some []) ∧
    (¬ hub ≥ ((pyInt node.relaxed_upper_bound : ℤ) : ℚ) →
      ((∃ p ∈ branchPairs inst hsel,
          branchQualifies inst node.branching_decisions
            (fixedOneWeight inst node.branching_decisions) p ∧
          0 < density p.1.2) →
        ∃ p ∈ branchPairs inst hsel,
          branchQualifies inst node.branching_decisions
            (fixedOneWeight inst node.branching_decisions) p ∧
          0 < density p.1.2 ∧
          (∀ q ∈ branchPairs inst hsel,
            branchQualifies inst node.branching_decisions
              (fixedOneWeight inst node.branching_decisions) q →
            density q.1.2 ≤ density p.1.2) ∧
          MyBranchingStrategy.make inst node =
            some (splitOn node.branching_decisions p.1.1)) ∧
      ((¬ ∃ p ∈ branchPairs inst hsel,
          branchQualifies inst node.branching_decisions
            (fixedOneWeight inst node.branching_decisions) p ∧
          0 < density p.1.2) →
        MyBranchingStrategy.make inst node =
          some (FirstUndecidedBranchingStrategy.make node))) := by
  have hmk : MyBranchingStrategy.make inst node =
      (if hub ≥ (pyInt node.relaxed_upper_bound : ℚ) then some []
      else if (branchPairs inst hsel).any fun p =>
          decide (node.branching_decisions.getD p.1.1 (some false) = none) &&
          decide (p.2 = 0) && decide (p.1.2.weight = 0) then none
      else
        let enforcedW := fixedOneWeight inst node.branching_decisions
        let sc := (branchPairs inst hsel).foldl
          (myBranchStep inst node.branching_decisions enforcedW) (0, 0)
        if sc.2 ≠ 0 then some (splitOn node.branching_decisions sc.2)
        else some (FirstUndecidedBranchingStrategy.make node)) := by
    unfold MyBranchingStrategy.make
    rw [hheur]
  constructor
  · intro hge
    rw [hmk, if_pos hge]
  · intro hlt
    have hany : ((branchPairs inst hsel).any fun p =>
        decide (node.branching_decisions.getD p.1.1 (some false) = none) &&
        decide (p.2 = 0) && decide (p.1.2.weight = 0)) = false := by
      rw [List.any_eq_false]
      intro p hp
      have := hnz p hp
      simp only [Bool.and_eq_true, decide_eq_true_eq, not_and]
      intro h12 h0
      exact this h12.1 h12.2 h0
    rw [hmk, if_neg hlt, if_neg (by rw [hany]; exact Bool.false_ne_true)]
    simp only
    rcases branchFold_char inst node.branching_decisions
        (fixedOneWeight inst node.branching_decisions)
        (branchPairs inst hsel) 0 0 with ⟨heq, hall⟩ | ⟨p, hp, hq, hm, heq, hall⟩
    · constructor
      · intro ⟨p, hp, hquala, hpos⟩
        exact absurd hpos (not_lt_of_le (hall p hp hquala))
      · intro _
        rw [heq]
        simp
    · constructor
      · intro _
        refine ⟨p, hp, hq, hm, hall, ?_⟩
        rw [heq]
        by_cases hp0 : p.1.1 = 0
        · rw [hp0]
          rw [if_neg (by simp)]
          have hdn : node.branching_decisions.getD 0 (some false) = none := by
            have := hq.1
            rw [hp0] at this
            exact this
          have hlen : 0 < node.branching_decisions.length := by
            by_contra hcon
            have h0 : node.branching_decisions = [] := by
              cases hd : node.branching_decisions with
              | nil => rfl
              | cons a t => rw [hd] at hcon; exact absurd (by simp) hcon
            rw [h0] at hdn
            simp [List.getD] at hdn
          have hget : node.branching_decisions[0] = none := by
            have := hdn
            rwa [List.getD_eq_getElem _ _ hlen] at this
          have hfind : (node.branching_decisions.findIdx?
              fun v => decide (v = none)) = some 0 := by
            rw [List.findIdx?_eq_some_iff_getElem]
            exact ⟨hlen, by simp [hget], by omega⟩
          have hfu : FirstUndecidedBranchingStrategy.make node =
              splitOn node.branching_decisions 0 := by
            unfold FirstUndecidedBranchingStrategy.make
            rw [hfind]
          rw [hfu]
        · rw [if_pos (by simpa using hp0)]
      · intro hno
        exact absurd ⟨p, hp, hq, hm⟩ hno

/-- Witness for C5: a node whose heuristic objective 3 reaches the integer
part of the relaxed bound 3 is cut off: the strategy returns the empty
sequence. -/
theorem myBranching_characterization_witness :
    MyBranchingStrategy.make ⟨[⟨3,1⟩,⟨2,1⟩],2⟩ ⟨[none,none], 3, some ([1,0],3)⟩ =
      some [] := by
  refine (myBranching_characterization ⟨[⟨3,1⟩,⟨2,1⟩],2⟩
    ⟨[none,none], 3, some ([1,0],3)⟩ [1,0] 3 rfl ?_).1 ?_
  · intro p hp h1 h2
    simp only [branchPairs, List.enum, List.enumFrom, List.zip_cons_cons,
      List.zip_nil_right] at hp
    fin_cases hp <;> norm_num
  · norm_num [pyInt, Int.tdiv]

/-! Structural lemmas about the stable descending insertion sort. -/

theorem insertDesc_perm {α : Type} (k : α → ℚ) (a : α) :
    ∀ l : List α, (insertDesc k a l).Perm (a :: l) := by
  intro l
  induction l with
  | nil => exact List.Perm.refl _
  | cons b t ih =>
    unfold insertDesc
    by_cases h : k b < k a
    · rw [if_pos h]
    · rw [if_neg h]
      exact (ih.cons b).trans (List.Perm.swap a b t)

theorem sortDesc_perm {α : Type} (k : α → ℚ) (l : List α) : (sortDesc k l).Perm l := by
  suffices h : ∀ (l acc : List α),
      (l.foldl (fun acc a => insertDesc k a acc) acc).Perm (l ++ acc) by
    simpa using h l []
  intro l
  induction l with
  | nil => intro acc; simp
  | cons a t ih =>
    intro acc
    rw [List.foldl_cons]
    exact (ih _).trans ((List.Perm.append_left t (insertDesc_perm k a acc)).trans
      List.perm_middle)

theorem insertDesc_sorted {α : Type} (k : α → ℚ) (a : α) :
    ∀ l : List α, SortedDown k l → SortedDown k (insertDesc k a l) := by
  intro l
  induction l with
  | nil => intro _; exact List.pairwise_singleton _ a
  | cons b t ih =>
    intro h
    obtain ⟨hhead, htail⟩ := List.pairwise_cons.mp h
    unfold insertDesc
    by_cases hc : k b < k a
    · rw [if_pos hc]
      refine List.Pairwise.cons ?_ h
      intro c hc2
      rcases List.mem_cons.mp hc2 with rfl | hct
      · exact le_of_lt hc
      · exact le_trans (hhead c hct) (le_of_lt hc)
    · rw [if_neg hc]
      refine List.Pairwise.cons ?_ (ih htail)
      intro c hcmem
      have hmem2 : c ∈ a :: t := (insertDesc_perm k a t).mem_iff.mp hcmem
      rcases List.mem_cons.mp hmem2 with rfl | hct
      · exact le_of_not_lt hc
      · exact hhead c hct

theorem sortDesc_sorted {α : Type} (k : α → ℚ) (l : List α) :
    SortedDown k (sortDesc k l) := by
  suffices h : ∀ (l acc : List α), SortedDown k acc →
      SortedDown k (l.foldl (fun acc a => insertDesc k a acc) acc) from
    h l [] List.Pairwise.nil
  intro l
  induction l with
  | nil => intro acc h; exact h
  | cons a t ih =>
    intro acc h
    rw [List.foldl_cons]
    exact ih _ (insertDesc_sorted k a acc h)

/-! The fractional greedy fill and its bound properties. -/

theorem greedy_le_mul (r : ℚ) :
    ∀ (L : List Item) (c : ℚ), 0 ≤ r → 0 ≤ c →
      (∀ it ∈ L, 0 < it.weight ∧ density it ≤ r) → greedy L c ≤ r * c := by
  intro L
  induction L with
  | nil =>
    intro c hr hc _
    simpa [greedy] using mul_nonneg hr hc
  | cons it L2 ih =>
    intro c hr hc hL
    obtain ⟨hw, hd⟩ := hL it (List.mem_cons_self it L2)
    have hvr : it.value ≤ r * it.weight := by
      rw [density, div_le_iff₀ hw] at hd
      exact hd
    unfold greedy
    by_cases h : it.weight ≤ c
    · rw [if_pos h]
      have h2 := ih (c - it.weight) hr (by linarith)
        (fun x hx => hL x (List.mem_cons_of_mem it hx))
      have h3 : r * it.weight + r * (c - it.weight) = r * c := by ring
      linarith
    · rw [if_neg h]
      have h1 : c / it.weight * it.value ≤ c / it.weight * (r * it.weight) :=
        mul_le_mul_of_nonneg_left hvr (div_nonneg hc (le_of_lt hw))
      have h2 : c / it.weight * (r * it.weight) = r * c := by
        field_simp
        ring
      linarith

theorem greedy_slope (r : ℚ) :
    ∀ (L : List Item) (c d : ℚ), 0 ≤ r → 0 ≤ c → 0 ≤ d →
      (∀ it ∈ L, 0 < it.weight ∧ density it ≤ r) →
      greedy L (c + d) ≤ greedy L c + r * d := by
  intro L
  induction L with
  | nil =>
    intro c d hr hc hd _
    have : 0 ≤ r * d := mul_nonneg hr hd
    simpa [greedy] using this
  | cons it L2 ih =>
    intro c d hr hc hd hL
    obtain ⟨hw, hdd⟩ := hL it (List.mem_cons_self it L2)
    have hvr : it.value ≤ r * it.weight := by
      rw [density, div_le_iff₀ hw] at hdd
      exact hdd
    have htail := fun x hx => hL x (List.mem_cons_of_mem it hx)
    unfold greedy
    by_cases h1 : it.weight ≤ c
    · rw [if_pos h1, if_pos (by linarith : it.weight ≤ c + d)]
      have hih := ih (c - it.weight) d hr (by linarith) hd htail
      have heq : c + d - it.weight = (c - it.weight) + d := by ring
      rw [heq]
      linarith
    · by_cases h2 : it.weight ≤ c + d
      · rw [if_pos h2, if_neg h1]
        have hg : greedy L2 (c + d - it.weight) ≤ r * (c + d - it.weight) :=
          greedy_le_mul r L2 (c + d - it.weight) hr (by linarith) htail
        have hkey : it.value - c / it.weight * it.value ≤ r * (it.weight - c) := by
          have hfrac : it.value - c / it.weight * it.value =
              it.value * ((it.weight - c) / it.weight) := by
            field_simp
            ring
          rw [hfrac]
          have h3 : 0 ≤ (it.weight - c) / it.weight :=
            div_nonneg (by linarith) (le_of_lt hw)
          have h4 : it.value * ((it.weight - c) / it.weight) ≤
              (r * it.weight) * ((it.weight - c) / it.weight) :=
            mul_le_mul_of_nonneg_right hvr h3
          have h5 : (r * it.weight) * ((it.weight - c) / it.weight) =
              r * (it.weight - c) := by
            field_simp
            ring
          linarith
        linarith
      · rw [if_neg h2, if_neg h1]
        have key : (c + d) / it.weight * it.value - c / it.weight * it.value =
            d / it.weight * it.value := by
          field_simp
          ring
        have h3 : d / it.weight * it.value ≤ d / it.weight * (r * it.weight) :=
          mul_le_mul_of_nonneg_left hvr (div_nonneg hd (le_of_lt hw))
        have h4 : d / it.weight * (r * it.weight) = r * d := by
          field_simp
          ring
        linarith

theorem dot_le_ratio (r : ℚ) :
    ∀ (L : List Item) (ys : List ℚ),
      (∀ it ∈ L, 0 < it.weight ∧ density it ≤ r) → (∀ y ∈ ys, 0 ≤ y) →
      dotf Item.value L ys ≤ r * dotf Item.weight L ys := by
  intro L
  induction L with
  | nil => intro ys _ _; simp [dotf]
  | cons it L2 ih =>
    intro ys hL hys
    cases ys with
    | nil => simp [dotf]
    | cons y ys2 =>
      obtain ⟨hw, hd⟩ := hL it (List.mem_cons_self it L2)
      have hvr : it.value ≤ r * it.weight := by
        rw [density, div_le_iff₀ hw] at hd
        exact hd
      have hy : 0 ≤ y := hys y (List.mem_cons_self y ys2)
      have hih := ih ys2 (fun x hx => hL x (List.mem_cons_of_mem it hx))
        (fun z hz => hys z (List.mem_cons_of_mem y hz))
      have h1 : it.value * y ≤ r * it.weight * y :=
        mul_le_mul_of_nonneg_right hvr hy
      have h2 : dotf Item.value (it :: L2) (y :: ys2) =
          it.value * y + dotf Item.value L2 ys2 := by simp [dotf]
      have h3 : dotf Item.weight (it :: L2) (y :: ys2) =
          it.weight * y + dotf Item.weight L2 ys2 := by simp [dotf]
      rw [h2, h3]
      have h4 : r * (it.weight * y + dotf Item.weight L2 ys2) =
          r * it.weight * y + r * dotf Item.weight L2 ys2 := by ring
      linarith

/-- Main greedy bound: on a list sorted descending by value/weight ratio with
positive weights and non-negative values, the fractional greedy fill value is
at least the value of every fractional assignment within the capacity. -/
theorem greedy_dominates :
    ∀ (L : List Item) (ys : List ℚ) (c : ℚ),
      SortedDown density L →
      (∀ it ∈ L, 0 < it.weight ∧ 0 ≤ it.value) →
      ys.length = L.length → (∀ y ∈ ys, 0 ≤ y ∧ y ≤ 1) →
      0 ≤ c → dotf Item.weight L ys ≤ c →
      dotf Item.value L ys ≤ greedy L c := by
  intro L
  induction L with
  | nil => intro ys c _ _ _ _ _ _; simp [dotf, greedy]
  | cons it L2 ih =>
    intro ys c hs hLp hlen hys hc hw
    cases ys with
    | nil => simp at hlen
    | cons y ys2 =>
      obtain ⟨hwpos, hvpos⟩ := hLp it (List.mem_cons_self it L2)
      obtain ⟨hy0, hy1⟩ := hys y (List.mem_cons_self y ys2)
      have hr0 : 0 ≤ density it := div_nonneg hvpos (le_of_lt hwpos)
      have hsort : ∀ x ∈ L2, density x ≤ density it :=
        (List.pairwise_cons.mp hs).1
      have hdot : dotf Item.value (it :: L2) (y :: ys2) =
          it.value * y + dotf Item.value L2 ys2 := by simp [dotf]
      have hdotw : dotf Item.weight (it :: L2) (y :: ys2) =
          it.weight * y + dotf Item.weight L2 ys2 := by simp [dotf]
      unfold greedy
      by_cases h : it.weight ≤ c
      · rw [if_pos h]
        have hc2 : dotf Item.weight L2 ys2 ≤ (c - it.weight) + (1 - y) * it.weight := by
          rw [hdotw] at hw
          nlinarith
        have hslack : 0 ≤ (1 - y) * it.weight := by nlinarith
        have hihyp := ih ys2 ((c - it.weight) + (1 - y) * it.weight)
          (List.pairwise_cons.mp hs).2
          (fun x hx => hLp x (List.mem_cons_of_mem it hx))
          (by simpa using hlen)
          (fun z hz => hys z (List.mem_cons_of_mem y hz))
          (by linarith) hc2
        have hslope := greedy_slope (density it) L2 (c - it.weight)
          ((1 - y) * it.weight) hr0 (by linarith) hslack
          (fun x hx => ⟨(hLp x (List.mem_cons_of_mem it hx)).1, hsort x hx⟩)
        have hdw : density it * ((1 - y) * it.weight) = (1 - y) * it.value := by
          rw [density]
          field_simp
          ring
        have hcomb : it.value * y + (1 - y) * it.value = it.value := by ring
        rw [hdot]
        linarith
      · rw [if_neg h]
        have hall : ∀ x ∈ it :: L2, 0 < x.weight ∧ density x ≤ density it := by
          intro x hx
          rcases List.mem_cons.mp hx with rfl | hxt
          · exact ⟨hwpos, le_refl _⟩
          · exact ⟨(hLp x (List.mem_cons_of_mem it hxt)).1, hsort x hxt⟩
        have h1 := dot_le_ratio (density it) (it :: L2) (y :: ys2) hall
          (fun z hz => (hys z hz).1)
        have h2 : density it * dotf Item.weight (it :: L2) (y :: ys2) ≤
            density it * c := mul_le_mul_of_nonneg_left hw hr0
        have h3 : density it * c = c / it.weight * it.value := by
          rw [density]
          field_simp
          ring
        linarith

/-! Decoding MyRelaxationSolver.solve under pairwise-distinct items: the dict
is the zipped association list, classification filters the zipped decisions,
and the greedy fold's value is the fractional greedy fill. -/

theorem zip_fst_pairwise {β : Type} :
    ∀ (items : List Item) (l : List β), items.Nodup →
      List.Pairwise (fun p q : Item × β => p.1 ≠ q.1) (items.zip l) := by
  intro items
  induction items with
  | nil => intro l _; simp
  | cons a t ih =>
    intro l hnd
    cases l with
    | nil => simp
    | cons b bs =>
      rw [List.zip_cons_cons]
      refine List.Pairwise.cons ?_ (ih bs (List.Nodup.of_cons hnd))
      intro q hq
      have hqt : q.1 ∈ t := (List.of_mem_zip hq).1
      have hna : a ∉ t := (List.nodup_cons.mp hnd).1
      intro hcontra
      rw [← hcontra] at hqt
      exact hna hqt

theorem dictSet_fresh (d : List (Item × Option ℚ)) (k : Item) (v : Option ℚ)
    (h : ∀ e ∈ d, e.1 ≠ k) : dictSet d k v = d ++ [(k, v)] := by
  unfold dictSet
  rw [if_neg]
  intro hc
  rw [List.any_eq_true] at hc
  obtain ⟨e, he, hek⟩ := hc
  exact h e he (by simpa using hek)

theorem dict_fold_fresh :
    ∀ (ps : List (Item × Option Bool)) (d0 : List (Item × Option ℚ)),
      List.Pairwise (fun p q : Item × Option Bool => p.1 ≠ q.1) ps →
      (∀ p ∈ ps, ∀ e ∈ d0, e.1 ≠ p.1) →
      ps.foldl (fun d p => dictSet d p.1 (decVal p.2)) d0 =
        d0 ++ ps.map (fun p => (p.1, decVal p.2)) := by
  intro ps
  induction ps with
  | nil => intro d0 _ _; simp
  | cons p t ih =>
    intro d0 hpw hfresh
    rw [List.foldl_cons,
      dictSet_fresh d0 p.1 _ (fun e he => hfresh p (List.mem_cons_self p t) e he)]
    rw [ih (d0 ++ [(p.1, decVal p.2)]) (List.pairwise_cons.mp hpw).2 ?_]
    · simp
    · intro q hq e he
      rcases List.mem_append.mp he with he0 | he1
      · exact hfresh q (List.mem_cons_of_mem p hq) e he0
      · have he2 : e = (p.1, decVal p.2) := by simpa using he1
        rw [he2]
        exact (List.pairwise_cons.mp hpw).1 q hq

theorem dictGet_cons_ne (d : List (Item × Option ℚ)) (e : Item × Option ℚ)
    (k : Item) (h : e.1 ≠ k) : dictGet (e :: d) k = dictGet d k := by
  unfold dictGet
  rw [List.find?_cons]
  have hd : (decide (e.1 = k)) = false := by simpa using h
  rw [hd]

theorem dictGet_assoc :
    ∀ (ps : List (Item × Option Bool)) (p : Item × Option Bool),
      List.Pairwise (fun p q : Item × Option Bool => p.1 ≠ q.1) ps → p ∈ ps →
      dictGet (ps.map fun q => (q.1, decVal q.2)) p.1 = decVal p.2 := by
  intro ps
  induction ps with
  | nil => intro p _ hp; simp at hp
  | cons a t ih =>
    intro p hpw hp
    rcases List.mem_cons.mp hp with rfl | hpt
    · unfold dictGet
      rw [List.map_cons, List.find?_cons]
      have hd : (decide ((p.1, decVal p.2).1 = p.1)) = true := by simp
      rw [hd]
    · have hne : a.1 ≠ p.1 := (List.pairwise_cons.mp hpw).1 p hpt
      rw [List.map_cons, dictGet_cons_ne _ _ _ hne]
      exact ih p (List.pairwise_cons.mp hpw).2 hpt

theorem classify_cons_ne :
    ∀ (tl : List Item) (acc : List Item × List Item × List Item)
      (e : Item × Option ℚ) (d : List (Item × Option ℚ)),
      (∀ a ∈ tl, e.1 ≠ a) →
      tl.foldl (classifyStep (e :: d)) acc = tl.foldl (classifyStep d) acc := by
  intro tl
  induction tl with
  | nil => intro acc e d _; rfl
  | cons a t ih =>
    intro acc e d h
    rw [List.foldl_cons, List.foldl_cons]
    have hstep : classifyStep (e :: d) acc a = classifyStep d acc a := by
      unfold classifyStep
      rw [dictGet_cons_ne d e a (h a (List.mem_cons_self a t))]
    rw [hstep]
    exact ih _ e d (fun b hb => h b (List.mem_cons_of_mem a hb))

theorem classify_assoc :
    ∀ (items : List Item) (dec : List (Option Bool))
      (acc : List Item × List Item × List Item),
      items.Nodup → items.length ≤ dec.length →
      items.foldl
        (classifyStep ((items.zip dec).map fun p => (p.1, decVal p.2))) acc =
      (acc.1 ++ (((items.zip dec).filter fun p => p.2 = none).map fun p => p.1),
        acc.2.1 ++
          (((items.zip dec).filter fun p => p.2 = some false).map fun p => p.1),
        acc.2.2 ++
          (((items.zip dec).filter fun p => p.2 = some true).map fun p => p.1)) := by
  intro items
  induction items with
  | nil => intro dec acc _ _; simp
  | cons a t ih =>
    intro dec acc hnd hlen
    cases dec with
    | nil => simp at hlen
    | cons od dt =>
      rw [List.zip_cons_cons, List.map_cons, List.foldl_cons]
      have hstep : classifyStep ((a, decVal od) :: ((t.zip dt).map
          fun p => (p.1, decVal p.2))) acc a =
          (match od with
            | none => (acc.1 ++ [a], acc.2.1, acc.2.2)
            | some false => (acc.1, acc.2.1 ++ [a], acc.2.2)
            | some true => (acc.1, acc.2.1, acc.2.2 ++ [a])) := by
        unfold classifyStep
        have hget : dictGet ((a, decVal od) :: ((t.zip dt).map
            fun p => (p.1, decVal p.2))) a = decVal od := by
          unfold dictGet
          rw [List.find?_cons]
          have hd : (decide ((a, decVal od).1 = a)) = true := by simp
          rw [hd]
        rw [hget]
        rcases od with _ | b
        · rfl
        · rcases b with _ | _
          · simp [decVal]
          · norm_num [decVal]
      rw [hstep]
      have hcc : ∀ (acc2 : List Item × List Item × List Item),
          t.foldl (classifyStep ((a, decVal od) :: ((t.zip dt).map
            fun p => (p.1, decVal p.2)))) acc2 =
          t.foldl (classifyStep ((t.zip dt).map fun p => (p.1, decVal p.2))) acc2 := by
        intro acc2
        refine classify_cons_ne t acc2 (a, decVal od) _ ?_
        intro b hb hcontra
        have hab : a = b := hcontra
        exact (List.nodup_cons.mp hnd).1 (by rw [hab]; exact hb)
      have hih := fun acc2 => ih dt acc2 (List.Nodup.of_cons hnd)
        (by simpa using hlen)
      rcases od with _ | b
      · rw [hcc, hih]
        simp [List.filter_cons, List.append_assoc]
      · rcases b with _ | _
        · rw [hcc, hih]
          simp [List.filter_cons, List.append_assoc]
        · rw [hcc, hih]
          simp [List.filter_cons, List.append_assoc]

theorem myGreedy_fold_vs_er (adj : ℚ) :
    ∀ (L : List Item) (ws vs : ℚ) (d : List (Item × Option ℚ)),
      (L.foldl (myGreedyStep adj) (ws, vs, true, d)).2.1 = vs := by
  intro L
  induction L with
  | nil => intro ws vs d; rfl
  | cons it L2 ih =>
    intro ws vs d
    rw [List.foldl_cons]
    have hstep : myGreedyStep adj (ws, vs, true, d) it =
        (ws, vs, true, dictSet d it (some 0)) := rfl
    rw [hstep, ih]

theorem greedy_cons (it : Item) (L2 : List Item) (c : ℚ) :
    greedy (it :: L2) c =
      if it.weight ≤ c then it.value + greedy L2 (c - it.weight)
      else c / it.weight * it.value := rfl

theorem myGreedy_fold_vs (adj : ℚ) :
    ∀ (L : List Item) (ws vs : ℚ) (d : List (Item × Option ℚ)),
      (L.foldl (myGreedyStep adj) (ws, vs, false, d)).2.1 =
        vs + greedy L (adj - ws) := by
  intro L
  induction L with
  | nil => intro ws vs d; simp [greedy]
  | cons it L2 ih =>
    intro ws vs d
    rw [List.foldl_cons]
    by_cases h : ws + it.weight > adj
    · have hstep : myGreedyStep adj (ws, vs, false, d) it =
          (ws, vs + (adj - ws) / it.weight * it.value, true,
            dictSet d it (some ((adj - ws) / it.weight))) := by
        unfold myGreedyStep
        rw [if_neg (by simp), if_pos h]
      rw [hstep, myGreedy_fold_vs_er, greedy_cons]
      rw [if_neg (by intro hc; rw [gt_iff_lt] at h; linarith)]
    · have hstep : myGreedyStep adj (ws, vs, false, d) it =
          (ws + it.weight, vs + it.value, false, dictSet d it (some 1)) := by
        unfold myGreedyStep
        rw [if_neg (by simp), if_neg h]
      rw [hstep, ih, greedy_cons]
      rw [if_pos (by push_neg at h; linarith)]
      have heq : adj - (ws + it.weight) = adj - ws - it.weight := by ring
      rw [heq]
      ring

/-! Sum decompositions of 0/1 completions along the decision slots. -/

theorem boolValue_le_naiveSel :
    ∀ (items : List Item) (dec : List (Option Bool)) (x : List Bool),
      items.length = dec.length → items.length = x.length →
      (∀ it ∈ items, 0 ≤ it.value) → consistent dec x →
      ((items.zip x).map fun p => if p.2 then p.1.value else 0).sum ≤
      ((items.zip (dec.map fun o =>
          if o = some false then (0:ℚ) else 1)).map fun p => p.1.value * p.2).sum := by
  intro items
  induction items with
  | nil => intro dec x _ _ _ _; simp
  | cons a t ih =>
    intro dec x hld hlx hv hco
    cases dec with
    | nil => simp at hld
    | cons od dt =>
      cases x with
      | nil => simp at hlx
      | cons b bt =>
        have hcoh : ∀ c, od = some c → b = c :=
          fun c hc => hco (od, b) (List.mem_cons_self _ _) c hc
        have hcot : consistent dt bt := by
          intro p hp c hc
          exact hco p (List.mem_cons_of_mem _ hp) c hc
        have hih := ih dt bt (by simpa using hld) (by simpa using hlx)
          (fun it hit => hv it (List.mem_cons_of_mem a hit)) hcot
        have hva := hv a (List.mem_cons_self a t)
        rw [List.map_cons, List.zip_cons_cons, List.zip_cons_cons,
          List.map_cons, List.map_cons, List.sum_cons, List.sum_cons]
        have hhead : (if b then a.value else 0) ≤
            a.value * (if od = some false then (0:ℚ) else 1) := by
          rcases od with _ | c
          · simp only [reduceCtorEq, if_false, mul_one]
            cases b <;> simp [hva]
          · rcases c with _ | _
            · have hb : b = false := hcoh false rfl
              rw [hb]
              simp
            · simp only [reduceCtorEq, Option.some.injEq, Bool.false_eq_true,
                if_false, mul_one]
              cases b <;> simp [hva]
        linarith

theorem fixedOneWeight_le_boolWeight :
    ∀ (items : List Item) (dec : List (Option Bool)) (x : List Bool),
      items.length = dec.length → items.length = x.length →
      (∀ it ∈ items, 0 ≤ it.weight) → consistent dec x →
      (((items.zip dec).filter fun p => p.2 = some true).map
        fun p => p.1.weight).sum ≤
      ((items.zip x).map fun p => if p.2 then p.1.weight else 0).sum := by
  intro items
  induction items with
  | nil => intro dec x _ _ _ _; simp
  | cons a t ih =>
    intro dec x hld hlx hw hco
    cases dec with
    | nil => simp at hld
    | cons od dt =>
      cases x with
      | nil => simp at hlx
      | cons b bt =>
        have hcoh : ∀ c, od = some c → b = c :=
          fun c hc => hco (od, b) (List.mem_cons_self _ _) c hc
        have hcot : consistent dt bt := by
          intro p hp c hc
          exact hco p (List.mem_cons_of_mem _ hp) c hc
        have hih := ih dt bt (by simpa using hld) (by simpa using hlx)
          (fun it hit => hw it (List.mem_cons_of_mem a hit)) hcot
        have hwa := hw a (List.mem_cons_self a t)
        rw [List.zip_cons_cons, List.zip_cons_cons, List.filter_cons,
          List.map_cons, List.sum_cons]
        have hbw : (0:ℚ) ≤ if b then a.weight else 0 := by
          cases b <;> simp [hwa]
        rcases od with _ | c
        · rw [if_neg (by simp)]
          have hbw2 : (0:ℚ) ≤ (if (a, b).2 = true then (a, b).1.weight else 0) := hbw
          linarith
        · rcases c with _ | _
          · rw [if_neg (by simp)]
            have hbw2 : (0:ℚ) ≤ (if (a, b).2 = true then (a, b).1.weight else 0) := hbw
            linarith
          · have hb : b = true := hcoh true rfl
            subst hb
            rw [if_pos (by simp), List.map_cons, List.sum_cons]
            have h1 : ((a, some true) : Item × Option Bool).1.weight = a.weight := rfl
            have h2 : (if ((a, true) : Item × Bool).2 = true
                then ((a, true) : Item × Bool).1.weight else 0) = a.weight := by simp
            rw [h1, h2]
            linarith

/-- Splitting a completion's weighted attribute sum into the part fixed to 1
and the part on undecided slots. -/
theorem boolAttr_decomp (f : Item → ℚ) :
    ∀ (items : List Item) (dec : List (Option Bool)) (x : List Bool),
      items.length = dec.length → items.length = x.length → consistent dec x →
      ((items.zip x).map fun p => if p.2 then f p.1 else 0).sum =
        (((items.zip dec).filter fun p => p.2 = some true).map
          fun p => f p.1).sum +
        ((((items.zip dec).zip x).filter fun p => p.1.2 = none).map
          fun p => if p.2 then f p.1.1 else 0).sum := by
  intro items
  induction items with
  | nil => intro dec x _ _ _; simp
  | cons a t ih =>
    intro dec x hld hlx hco
    cases dec with
    | nil => simp at hld
    | cons od dt =>
      cases x with
      | nil => simp at hlx
      | cons b bt =>
        have hcoh : ∀ c, od = some c → b = c :=
          fun c hc => hco (od, b) (List.mem_cons_self _ _) c hc
        have hcot : consistent dt bt := by
          intro p hp c hc
          exact hco p (List.mem_cons_of_mem _ hp) c hc
        have hih := ih dt bt (by simpa using hld) (by simpa using hlx) hcot
        rw [List.zip_cons_cons, List.zip_cons_cons, List.zip_cons_cons]
        rcases od with _ | c
        · simp only [List.filter_cons, decide_eq_true_eq, reduceCtorEq, if_false,
            Option.some.injEq, eq_self_iff_true, if_true, List.map_cons,
            List.sum_cons]
          rw [hih]
          ring
        · rcases c with _ | _
          · have hb : b = false := hcoh false rfl
            subst hb
            simp only [List.filter_cons, decide_eq_true_eq, reduceCtorEq,
              if_false, Option.some.injEq, Bool.false_eq_true,
              eq_self_iff_true, if_true, List.map_cons, List.sum_cons]
            rw [hih]
            ring
          · have hb : b = true := hcoh true rfl
            subst hb
            simp only [List.filter_cons, decide_eq_true_eq, reduceCtorEq,
              if_false, Option.some.injEq, Bool.false_eq_true,
              eq_self_iff_true, if_true, List.map_cons, List.sum_cons]
            rw [hih]
            ring

theorem map_choice (f : Item → Bool → ℚ) :
    ∀ (P : List ((Item × Option Bool) × Bool)),
      List.Pairwise (fun p q => p.1.1 ≠ q.1.1) P →
      P.map (fun p => f p.1.1 p.2) =
        (P.map fun p => p.1.1).map (fun it => f it (chooseFn P it)) := by
  intro P
  induction P with
  | nil => intro _; rfl
  | cons p t ih =>
    intro hpw
    rw [List.map_cons, List.map_cons, List.map_cons]
    have hhd : chooseFn (p :: t) p.1.1 = p.2 := by
      unfold chooseFn
      rw [List.find?_cons]
      have hd : (decide (p.1.1 = p.1.1)) = true := by simp
      rw [hd]
      rfl
    rw [hhd]
    have htl : (t.map fun p => p.1.1).map (fun it => f it (chooseFn (p :: t) it)) =
        (t.map fun p => p.1.1).map (fun it => f it (chooseFn t it)) := by
      apply List.map_congr_left
      intro it hit
      obtain ⟨q, hq, hq2⟩ := List.mem_map.mp hit
      have hne : p.1.1 ≠ it := by
        rw [← hq2]
        exact (List.pairwise_cons.mp hpw).1 q hq
      unfold chooseFn
      rw [List.find?_cons]
      have hd : (decide (p.1.1 = it)) = false := by simpa using hne
      rw [hd]
    rw [htl, ← ih (List.pairwise_cons.mp hpw).2]

theorem dotf_map_self (f h : Item → ℚ) :
    ∀ L : List Item, dotf f L (L.map h) = (L.map fun it => f it * h it).sum := by
  intro L
  induction L with
  | nil => rfl
  | cons a t ih => simp [dotf, List.zip_cons_cons] at ih ⊢; rw [ih]

theorem pairwise_zip_left {α β : Type} {R : α → α → Prop} :
    ∀ (l : List α) (x : List β), List.Pairwise R l →
      List.Pairwise (fun p q : α × β => R p.1 q.1) (l.zip x) := by
  intro l
  induction l with
  | nil => intro x _; simp
  | cons a t ih =>
    intro x hpw
    cases x with
    | nil => simp
    | cons b bt =>
      rw [List.zip_cons_cons]
      refine List.Pairwise.cons ?_ (ih bt (List.pairwise_cons.mp hpw).2)
      intro q hq
      exact (List.pairwise_cons.mp hpw).1 q.1 (List.of_mem_zip hq).1

theorem filter_fst_zip {α β γ : Type} (P : α → Bool) (g : α → γ) :
    ∀ (l : List α) (x : List β), l.length = x.length →
      (((l.zip x).filter fun p => P p.1).map fun p => g p.1) =
        (l.filter P).map g := by
  intro l
  induction l with
  | nil => intro x _; simp
  | cons a t ih =>
    intro x hl
    cases x with
    | nil => simp at hl
    | cons b bt =>
      rw [List.zip_cons_cons, List.filter_cons, List.filter_cons]
      by_cases h : P a
      · rw [if_pos (by simpa using h), if_pos (by simpa using h),
          List.map_cons, List.map_cons, ih bt (by simpa using hl)]
      · rw [if_neg (by simpa using h), if_neg (by simpa using h),
          ih bt (by simpa using hl)]

/-- Under pairwise-distinct items, aligned lengths, fitting fixed-1 items and
no zero-weight undecided item, MyRelaxationSolver.solve returns a solution
whose upper bound is the fixed-1 value plus the fractional greedy fill of the
ratio-sorted undecided items within the remaining capacity. -/
theorem mySolve_value (inst : Instance) (dec : BranchingDecisions)
    (hnd : inst.items.Nodup) (hlen : inst.items.length = dec.length)
    (hcap : ¬ fixedOneWeight inst dec > inst.capacity)
    (hwnz : ∀ p ∈ inst.items.zip dec, p.2 = none → p.1.weight ≠ 0) :
    ∃ sel, MyRelaxationSolver.solve inst dec = some (.sol sel
      ((((inst.items.zip dec).filter fun p => p.2 = some true).map
          fun p => p.1.value).sum +
        greedy (sortDesc density (((inst.items.zip dec).filter
            fun p => p.2 = none).map fun p => p.1))
          (inst.capacity - fixedOneWeight inst dec))) := by
  simp only [MyRelaxationSolver.solve]
  rw [if_neg hcap]
  have hdict : (inst.items.zip dec).foldl
      (fun d p => dictSet d p.1 (decVal p.2)) [] =
      (inst.items.zip dec).map fun p => (p.1, decVal p.2) := by
    have h := dict_fold_fresh (inst.items.zip dec) []
      (zip_fst_pairwise inst.items dec hnd)
      (by intro p _ e he; simp at he)
    simpa using h
  rw [hdict, classify_assoc inst.items dec ([], [], []) hnd (le_of_eq hlen)]
  simp only [List.nil_append]
  have hany : ((((inst.items.zip dec).filter fun p => p.2 = none).map
      fun p => p.1).any fun it => decide (it.weight = 0)) = false := by
    rw [List.any_eq_false]
    intro it hit
    obtain ⟨p, hp, hp2⟩ := List.mem_map.mp hit
    have hpf := List.mem_filter.mp hp
    simp only [decide_eq_true_eq]
    intro h0
    exact hwnz p hpf.1 (by simpa using hpf.2) (by rw [hp2]; exact h0)
  rw [if_neg (by rw [hany]; exact Bool.false_ne_true)]
  exact ⟨_, by rw [myGreedy_fold_vs, sub_zero]; simp only [List.map_map]; rfl⟩
/-- With a zero-weight undecided item (and fitting fixed-1 items) the solver
raises ZeroDivisionError. -/
theorem mySolve_none_of_zero_weight (inst : Instance) (dec : BranchingDecisions)
    (hnd : inst.items.Nodup) (hlen : inst.items.length = dec.length)
    (hcap : ¬ fixedOneWeight inst dec > inst.capacity)
    (p₀ : Item × Option Bool) (hp₀ : p₀ ∈ inst.items.zip dec)
    (h1 : p₀.2 = none) (h2 : p₀.1.weight = 0) :
    MyRelaxationSolver.solve inst dec = none := by
  simp only [MyRelaxationSolver.solve]
  rw [if_neg hcap]
  have hdict : (inst.items.zip dec).foldl
      (fun d p => dictSet d p.1 (decVal p.2)) [] =
      (inst.items.zip dec).map fun p => (p.1, decVal p.2) := by
    have h := dict_fold_fresh (inst.items.zip dec) []
      (zip_fst_pairwise inst.items dec hnd)
      (by intro p _ e he; simp at he)
    simpa using h
  rw [hdict, classify_assoc inst.items dec ([], [], []) hnd (le_of_eq hlen)]
  simp only [List.nil_append]
  rw [if_pos]
  rw [List.any_eq_true]
  refine ⟨p₀.1, List.mem_map.mpr ⟨p₀, List.mem_filter.mpr ⟨hp₀, by simp [h1]⟩, rfl⟩, ?_⟩
  simpa using h2

theorem greedy_le_sum :
    ∀ (L : List Item) (c : ℚ), 0 ≤ c →
      (∀ it ∈ L, 0 < it.weight ∧ 0 ≤ it.value) →
      greedy L c ≤ (L.map Item.value).sum := by
  intro L
  induction L with
  | nil => intro c _ _; simp [greedy]
  | cons it L2 ih =>
    intro c hc hL
    obtain ⟨hw, hv⟩ := hL it (List.mem_cons_self it L2)
    rw [greedy_cons, List.map_cons, List.sum_cons]
    by_cases h : it.weight ≤ c
    · rw [if_pos h]
      have := ih (c - it.weight) (by linarith)
        (fun x hx => hL x (List.mem_cons_of_mem it hx))
      linarith
    · rw [if_neg h]
      have h1 : c / it.weight ≤ 1 := by
        rw [div_le_one hw]
        linarith [lt_of_not_ge h]
      have h2 : c / it.weight * it.value ≤ 1 * it.value :=
        mul_le_mul_of_nonneg_right h1 hv
      have h3 : (0:ℚ) ≤ (L2.map Item.value).sum := by
        apply List.sum_nonneg
        intro q hq
        obtain ⟨x, hx, hx2⟩ := List.mem_map.mp hq
        rw [← hx2]
        exact (hL x (List.mem_cons_of_mem it hx)).2
      linarith

theorem selValue_naive_split :
    ∀ (items : List Item) (dec : List (Option Bool)), items.length = dec.length →
      ((items.zip (dec.map fun o => if o = some false then (0:ℚ) else 1)).map
        fun p => p.1.value * p.2).sum =
      (((items.zip dec).filter fun p => p.2 = some true).map
        fun p => p.1.value).sum +
      (((items.zip dec).filter fun p => p.2 = none).map
        fun p => p.1.value).sum := by
  intro items
  induction items with
  | nil => intro dec _; simp
  | cons a t ih =>
    intro dec hld
    cases dec with
    | nil => simp at hld
    | cons od dt =>
      rw [List.map_cons, List.zip_cons_cons, List.zip_cons_cons, List.map_cons,
        List.sum_cons]
      have hih := ih dt (by simpa using hld)
      rcases od with _ | c
      · simp only [List.filter_cons, decide_eq_true_eq, reduceCtorEq, if_false,
          Option.some.injEq, eq_self_iff_true, if_true, List.map_cons,
          List.sum_cons]
        rw [hih]
        ring
      · rcases c with _ | _
        · simp only [List.filter_cons, decide_eq_true_eq, reduceCtorEq, if_false,
            Option.some.injEq, Bool.false_eq_true, eq_self_iff_true, if_true,
            List.map_cons, List.sum_cons]
          rw [hih]
          ring
        · simp only [List.filter_cons, decide_eq_true_eq, reduceCtorEq, if_false,
            Option.some.injEq, Bool.false_eq_true, eq_self_iff_true, if_true,
            List.map_cons, List.sum_cons]
          rw [hih]
          ring

/-- C2 (amended): bound soundness.  For validated instances and aligned
decisions, the very naive and naive bounds dominate every feasible 0/1
completion consistent with the decisions (the infeasible result's bound ⊥
needs no completion to dominate, as none exists); MyRelaxationSolver's bound
does so too when the items are pairwise distinct and the call returns. -/
theorem relaxation_bound_soundness (inst : Instance) (dec : BranchingDecisions)
    (hval : inst.valid) (hlen : inst.items.length = dec.length) :
    (∀ x : List Bool, x.length = inst.items.length → consistent dec x →
      boolWeight inst x ≤ inst.capacity →
      boolValue inst x ≤ (VeryNaiveRelaxationSolver.solve inst dec).2) ∧
    (∀ x : List Bool, x.length = inst.items.length → consistent dec x →
      boolWeight inst x ≤ inst.capacity →
      ((boolValue inst x : ℚ) : WithBot ℚ) ≤
        (NaiveRelaxationSolver.solve inst dec).ubound) ∧
    (inst.items.Nodup → ∀ r, MyRelaxationSolver.solve inst dec = some r →
      ∀ x : List Bool, x.length = inst.items.length → consistent dec x →
      boolWeight inst x ≤ inst.capacity →
      ((boolValue inst x : ℚ) : WithBot ℚ) ≤ r.ubound) := by
  have hvnv : ∀ x : List Bool, x.length = inst.items.length → consistent dec x →
      boolValue inst x ≤ (VeryNaiveRelaxationSolver.solve inst dec).2 := by
    intro x hlx hco
    simp only [VeryNaiveRelaxationSolver.solve]
    exact boolValue_le_naiveSel inst.items dec x hlen hlx.symm
      (fun it hit => (hval.1 it hit).1) hco
  have hinfw : ∀ x : List Bool, x.length = inst.items.length → consistent dec x →
      boolWeight inst x ≤ inst.capacity →
      fixedOneWeight inst dec ≤ inst.capacity := by
    intro x hlx hco hbw
    have h1 := fixedOneWeight_le_boolWeight inst.items dec x hlen hlx.symm
      (fun it hit => (hval.1 it hit).2) hco
    exact le_trans h1 hbw
  refine ⟨fun x hlx hco _ => hvnv x hlx hco, ?_, ?_⟩
  · intro x hlx hco hbw
    unfold NaiveRelaxationSolver.solve
    by_cases hc : fixedOneWeight inst dec > inst.capacity
    · exact absurd (hinfw x hlx hco hbw) (not_le_of_gt hc)
    · rw [if_neg hc]
      simp only [RelaxResult.ubound, WithBot.coe_le_coe]
      exact hvnv x hlx hco
  · intro hnd r hr x hlx hco hbw
    by_cases hc : fixedOneWeight inst dec > inst.capacity
    · exact absurd (hinfw x hlx hco hbw) (not_le_of_gt hc)
    · have hwnz : ∀ p ∈ inst.items.zip dec, p.2 = none → p.1.weight ≠ 0 := by
        intro p hp h1 h2
        rw [mySolve_none_of_zero_weight inst dec hnd hlen hc p hp h1 h2] at hr
        exact Option.noConfusion hr
      obtain ⟨sel, hsol⟩ := mySolve_value inst dec hnd hlen hc hwnz
      rw [hr] at hsol
      have hre := Option.some.inj hsol
      rw [hre]
      simp only [RelaxResult.ubound, WithBot.coe_le_coe]
      -- notation for the pieces
      have hzxlen : (inst.items.zip dec).length = x.length := by
        rw [List.length_zip, ← hlen, min_self, hlx]
      have hdv := boolAttr_decomp Item.value inst.items dec x hlen hlx.symm hco
      have hdw := boolAttr_decomp Item.weight inst.items dec x hlen hlx.symm hco
      have hpw3 : List.Pairwise
          (fun p q : (Item × Option Bool) × Bool => p.1.1 ≠ q.1.1)
          (((inst.items.zip dec).zip x).filter fun p => p.1.2 = none) :=
        (pairwise_zip_left (inst.items.zip dec) x
          (zip_fst_pairwise inst.items dec hnd)).filter _
      have hmapfst : ((((inst.items.zip dec).zip x).filter
            fun p => p.1.2 = none).map fun p => p.1.1) =
          (((inst.items.zip dec).filter fun p => p.2 = none).map fun p => p.1) :=
        filter_fst_zip (fun q => decide (q.2 = none)) (fun q => q.1)
          (inst.items.zip dec) x hzxlen
      -- the chosen flag as a function of the item
      have hchv := map_choice (fun it b => if b then it.value else 0)
        (((inst.items.zip dec).zip x).filter fun p => p.1.2 = none) hpw3
      have hchw := map_choice (fun it b => if b then it.weight else 0)
        (((inst.items.zip dec).zip x).filter fun p => p.1.2 = none) hpw3
      rw [hmapfst] at hchv hchw
      -- unfixed items and their sorted order
      have hperm := (sortDesc_perm density
        (((inst.items.zip dec).filter fun p => p.2 = none).map fun p => p.1))
      have hch := fun it => chooseFn
        (((inst.items.zip dec).zip x).filter fun p => p.1.2 = none) it
      -- membership facts on the sorted undecided items
      have hmemuf : ∀ it ∈ sortDesc density (((inst.items.zip dec).filter
          fun p => p.2 = none).map fun p => p.1), 0 < it.weight ∧ 0 ≤ it.value := by
        intro it hit
        have hit2 := hperm.mem_iff.mp hit
        obtain ⟨p, hp, hp2⟩ := List.mem_map.mp hit2
        have hpf := List.mem_filter.mp hp
        have hmem : p.1 ∈ inst.items := (List.of_mem_zip hpf.1).1
        have hnz := hwnz p hpf.1 (by simpa using hpf.2)
        constructor
        · rw [← hp2]
          exact lt_of_le_of_ne (hval.1 p.1 hmem).2 (Ne.symm hnz)
        · rw [← hp2]
          exact (hval.1 p.1 hmem).1
      -- value and weight of the completion on the sorted list as a dot product
      have hys : ∀ g : Item → ℚ,
          ((sortDesc density (((inst.items.zip dec).filter
            fun p => p.2 = none).map fun p => p.1)).map
              fun it => if chooseFn (((inst.items.zip dec).zip x).filter
                fun p => p.1.2 = none) it then g it else 0).sum =
          dotf g (sortDesc density (((inst.items.zip dec).filter
            fun p => p.2 = none).map fun p => p.1))
            ((sortDesc density (((inst.items.zip dec).filter
              fun p => p.2 = none).map fun p => p.1)).map
                fun it => if chooseFn (((inst.items.zip dec).zip x).filter
                  fun p => p.1.2 = none) it then (1:ℚ) else 0) := by
        intro g
        rw [dotf_map_self]
        apply congrArg
        apply List.map_congr_left
        intro it _
        by_cases hcase : chooseFn (((inst.items.zip dec).zip x).filter
          fun p => p.1.2 = none) it
        · rw [if_pos hcase, if_pos hcase, mul_one]
        · rw [if_neg hcase, if_neg hcase, mul_zero]
      -- transport the undecided sums to the sorted list
      have htransport : ∀ g : Item → ℚ,
          (((((inst.items.zip dec).zip x).filter fun p => p.1.2 = none).map
            fun p => if p.2 then g p.1.1 else 0).sum) =
          ((sortDesc density (((inst.items.zip dec).filter
            fun p => p.2 = none).map fun p => p.1)).map
              fun it => if chooseFn (((inst.items.zip dec).zip x).filter
                fun p => p.1.2 = none) it then g it else 0).sum := by
        intro g
        have hmc := map_choice (fun it b => if b then g it else 0)
          (((inst.items.zip dec).zip x).filter fun p => p.1.2 = none) hpw3
        rw [hmapfst] at hmc
        rw [hmc]
        exact ((hperm.map _).sum_eq).symm
      -- capacity left for the undecided part
      have hadj : dotf Item.weight (sortDesc density (((inst.items.zip dec).filter
          fun p => p.2 = none).map fun p => p.1))
          ((sortDesc density (((inst.items.zip dec).filter
            fun p => p.2 = none).map fun p => p.1)).map
              fun it => if chooseFn (((inst.items.zip dec).zip x).filter
                fun p => p.1.2 = none) it then (1:ℚ) else 0) ≤
          inst.capacity - fixedOneWeight inst dec := by
        rw [← hys Item.weight, ← htransport Item.weight]
        have hbw2 : boolWeight inst x =
            fixedOneWeight inst dec +
            ((((inst.items.zip dec).zip x).filter fun p => p.1.2 = none).map
              fun p => if p.2 then p.1.1.weight else 0).sum := hdw
        linarith [hbw, hbw2.symm.le, hbw2.le]
      have hadj0 : (0:ℚ) ≤ inst.capacity - fixedOneWeight inst dec := by
        push_neg at hc
        linarith
      have hge := greedy_dominates
        (sortDesc density (((inst.items.zip dec).filter
          fun p => p.2 = none).map fun p => p.1))
        ((sortDesc density (((inst.items.zip dec).filter
          fun p => p.2 = none).map fun p => p.1)).map
            fun it => if chooseFn (((inst.items.zip dec).zip x).filter
              fun p => p.1.2 = none) it then (1:ℚ) else 0)
        (inst.capacity - fixedOneWeight inst dec)
        (sortDesc_sorted density _) hmemuf (by rw [List.length_map])
        (by
          intro y hy
          obtain ⟨it, _, hit2⟩ := List.mem_map.mp hy
          rw [← hit2]
          by_cases hcase : chooseFn (((inst.items.zip dec).zip x).filter
            fun p => p.1.2 = none) it
          · rw [if_pos hcase]; norm_num
          · rw [if_neg hcase]; norm_num)
        hadj0 hadj
      -- assemble
      have hval2 : boolValue inst x =
          (((inst.items.zip dec).filter fun p => p.2 = some true).map
            fun p => p.1.value).sum +
          ((((inst.items.zip dec).zip x).filter fun p => p.1.2 = none).map
            fun p => if p.2 then p.1.1.value else 0).sum := hdv
      rw [hval2, htransport Item.value, hys Item.value]
      linarith

/-- C4 (amended): bound ordering.  The naive bound never exceeds the very
naive bound; with pairwise-distinct items, when MyRelaxationSolver returns,
its fractional bound never exceeds the naive bound (infeasible counts as
minus infinity and the infeasibility checks coincide). -/
theorem relaxation_bound_ordering (inst : Instance) (dec : BranchingDecisions)
    (hval : inst.valid) (hlen : inst.items.length = dec.length)
    (hnd : inst.items.Nodup) :
    (NaiveRelaxationSolver.solve inst dec).ubound ≤
      ((VeryNaiveRelaxationSolver.solve inst dec).2 : WithBot ℚ) ∧
    ∀ r, MyRelaxationSolver.solve inst dec = some r →
      r.ubound ≤ (NaiveRelaxationSolver.solve inst dec).ubound := by
  constructor
  · unfold NaiveRelaxationSolver.solve
    by_cases hc : fixedOneWeight inst dec > inst.capacity
    · rw [if_pos hc]
      exact bot_le
    · rw [if_neg hc]
      simp only [RelaxResult.ubound, VeryNaiveRelaxationSolver.solve,
        WithBot.coe_le_coe]
      exact le_refl _
  · intro r hr
    by_cases hc : fixedOneWeight inst dec > inst.capacity
    · have hinf : MyRelaxationSolver.solve inst dec = some .infeasible := by
        simp only [MyRelaxationSolver.solve]
        rw [if_pos hc]
      rw [hinf] at hr
      rw [← Option.some.inj hr]
      exact bot_le
    · have hwnz : ∀ p ∈ inst.items.zip dec, p.2 = none → p.1.weight ≠ 0 := by
        intro p hp h1 h2
        rw [mySolve_none_of_zero_weight inst dec hnd hlen hc p hp h1 h2] at hr
        exact Option.noConfusion hr
      obtain ⟨sel, hsol⟩ := mySolve_value inst dec hnd hlen hc hwnz
      rw [hr] at hsol
      rw [Option.some.inj hsol]
      unfold NaiveRelaxationSolver.solve
      rw [if_neg hc]
      simp only [RelaxResult.ubound, WithBot.coe_le_coe]
      have hsplit := selValue_naive_split inst.items dec hlen
      have hselv : selValue inst (dec.map fun o =>
          if o = some false then (0:ℚ) else 1) =
          (((inst.items.zip dec).filter fun p => p.2 = some true).map
            fun p => p.1.value).sum +
          (((inst.items.zip dec).filter fun p => p.2 = none).map
            fun p => p.1.value).sum := hsplit
      rw [hselv]
      have hadj0 : (0:ℚ) ≤ inst.capacity - fixedOneWeight inst dec := by
        push_neg at hc
        linarith
      have hmemuf : ∀ it ∈ sortDesc density (((inst.items.zip dec).filter
          fun p => p.2 = none).map fun p => p.1), 0 < it.weight ∧ 0 ≤ it.value := by
        intro it hit
        have hit2 := (sortDesc_perm density _).mem_iff.mp hit
        obtain ⟨p, hp, hp2⟩ := List.mem_map.mp hit2
        have hpf := List.mem_filter.mp hp
        have hmem : p.1 ∈ inst.items := (List.of_mem_zip hpf.1).1
        have hnz := hwnz p hpf.1 (by simpa using hpf.2)
        constructor
        · rw [← hp2]
          exact lt_of_le_of_ne (hval.1 p.1 hmem).2 (Ne.symm hnz)
        · rw [← hp2]
          exact (hval.1 p.1 hmem).1
      have hgs := greedy_le_sum
        (sortDesc density (((inst.items.zip dec).filter
          fun p => p.2 = none).map fun p => p.1))
        (inst.capacity - fixedOneWeight inst dec) hadj0 hmemuf
      have hpsum : ((sortDesc density (((inst.items.zip dec).filter
          fun p => p.2 = none).map fun p => p.1)).map Item.value).sum =
          (((inst.items.zip dec).filter fun p => p.2 = none).map
            fun p => p.1.value).sum := by
        rw [((sortDesc_perm density _).map Item.value).sum_eq]
        rw [List.map_map]
        rfl
      linarith

/-- Witness for C2: on one undecided unit item with room, the completion
taking it has value 2 within the very naive bound. -/
theorem relaxation_bound_soundness_witness :
    boolValue ⟨[⟨2,1⟩],5⟩ [true] ≤
      (VeryNaiveRelaxationSolver.solve ⟨[⟨2,1⟩],5⟩ [none]).2 :=
  (relaxation_bound_soundness ⟨[⟨2,1⟩],5⟩ [none]
    ⟨by intro it hit; fin_cases hit <;> norm_num, by norm_num⟩ (by norm_num)).1
    [true] (by norm_num) (by intro p hp b hb; fin_cases hp <;> simp_all)
    (by norm_num [boolWeight])

/-- Witness for C4: the naive bound is below the very naive bound on a
one-item instance whose fixed item overflows. -/
theorem relaxation_bound_ordering_witness :
    (NaiveRelaxationSolver.solve ⟨[⟨1,2⟩],1⟩ [some true]).ubound ≤
      (((VeryNaiveRelaxationSolver.solve ⟨[⟨1,2⟩],1⟩ [some true]).2 : ℚ) :
        WithBot ℚ) :=
  (relaxation_bound_ordering ⟨[⟨1,2⟩],1⟩ [some true]
    ⟨by intro it hit; fin_cases hit <;> norm_num, by norm_num⟩ (by norm_num)
    (by norm_num)).1

/-! C3: characterizing MyRelaxationSolver's selection.  The undecided items
are tagged with their original indices; the spec-side greedy assignment
follows the claim's wording. -/

theorem greedyWrites_fst : ∀ (L : List Item) (c : ℚ),
    (greedyWrites L c).map Prod.fst = L := by
  intro L
  induction L with
  | nil => intro c; rfl
  | cons it L2 ih =>
    intro c
    unfold greedyWrites
    by_cases h : it.weight ≤ c
    · rw [if_pos h, List.map_cons, ih]
    · rw [if_neg h, List.map_cons, List.map_map]
      congr 1
      exact List.map_id _

theorem greedyAssign_fst : ∀ (T : List (Item × ℕ)) (c : ℚ),
    (greedyAssign T c).map Prod.fst = T := by
  intro T
  induction T with
  | nil => intro c; rfl
  | cons p T2 ih =>
    intro c
    unfold greedyAssign
    by_cases h : p.1.weight ≤ c
    · rw [if_pos h, List.map_cons, ih]
    · rw [if_neg h, List.map_cons, List.map_map]
      congr 1
      exact List.map_id _

theorem greedyWrites_of_assign : ∀ (T : List (Item × ℕ)) (c : ℚ),
    greedyWrites (T.map Prod.fst) c =
      (greedyAssign T c).map fun a => (a.1.1, a.2) := by
  intro T
  induction T with
  | nil => intro c; rfl
  | cons p T2 ih =>
    intro c
    rw [List.map_cons]
    unfold greedyWrites greedyAssign
    by_cases h : p.1.weight ≤ c
    · rw [if_pos h, if_pos h, List.map_cons, ih]
    · rw [if_neg h, if_neg h, List.map_cons, List.map_map, List.map_map]
      rfl

theorem greedyAssign_value : ∀ (T : List (Item × ℕ)) (c : ℚ),
    ((greedyAssign T c).map fun a => a.2 * a.1.1.value).sum =
      greedy (T.map Prod.fst) c := by
  intro T
  induction T with
  | nil => intro c; rfl
  | cons p T2 ih =>
    intro c
    rw [List.map_cons]
    unfold greedyAssign
    rw [greedy_cons]
    by_cases h : p.1.weight ≤ c
    · rw [if_pos h, if_pos h, List.map_cons, List.sum_cons, ih]
      ring
    · rw [if_neg h, if_neg h, List.map_cons, List.sum_cons, List.map_map]
      have hz : (T2.map ((fun a : (Item × ℕ) × ℚ => a.2 * a.1.1.value) ∘
          fun q => (q, 0))).sum = 0 := by
        have : (T2.map ((fun a : (Item × ℕ) × ℚ => a.2 * a.1.1.value) ∘
            fun q => (q, 0))) = T2.map fun _ => (0:ℚ) := by
          apply List.map_congr_left
          intro q _
          simp [Function.comp]
        rw [this]
        simp
      rw [hz]
      ring

theorem myGreedy_fold_dict_er (adj : ℚ) :
    ∀ (L : List Item) (ws vs : ℚ) (d : List (Item × Option ℚ)),
      (L.foldl (myGreedyStep adj) (ws, vs, true, d)).2.2.2 =
        (L.map fun q => (q, (0:ℚ))).foldl
          (fun d w => dictSet d w.1 (some w.2)) d := by
  intro L
  induction L with
  | nil => intro ws vs d; rfl
  | cons it L2 ih =>
    intro ws vs d
    rw [List.foldl_cons, List.map_cons, List.foldl_cons]
    have hstep : myGreedyStep adj (ws, vs, true, d) it =
        (ws, vs, true, dictSet d it (some 0)) := rfl
    rw [hstep, ih]

theorem myGreedy_fold_dict (adj : ℚ) :
    ∀ (L : List Item) (ws vs : ℚ) (d : List (Item × Option ℚ)),
      (L.foldl (myGreedyStep adj) (ws, vs, false, d)).2.2.2 =
        (greedyWrites L (adj - ws)).foldl
          (fun d w => dictSet d w.1 (some w.2)) d := by
  intro L
  induction L with
  | nil => intro ws vs d; rfl
  | cons it L2 ih =>
    intro ws vs d
    rw [List.foldl_cons]
    unfold greedyWrites
    by_cases h : ws + it.weight > adj
    · have hstep : myGreedyStep adj (ws, vs, false, d) it =
          (ws, vs + (adj - ws) / it.weight * it.value, true,
            dictSet d it (some ((adj - ws) / it.weight))) := by
        unfold myGreedyStep
        rw [if_neg (by simp), if_pos h]
      rw [hstep, myGreedy_fold_dict_er,
        if_neg (by intro hc; rw [gt_iff_lt] at h; linarith), List.foldl_cons]
    · have hstep : myGreedyStep adj (ws, vs, false, d) it =
          (ws + it.weight, vs + it.value, false, dictSet d it (some 1)) := by
        unfold myGreedyStep
        rw [if_neg (by simp), if_neg h]
      rw [hstep, ih, if_pos (by push_neg at h; linarith), List.foldl_cons]
      have heq : adj - (ws + it.weight) = adj - ws - it.weight := by ring
      rw [heq]

theorem foldl_dictSet_writes :
    ∀ (ws : List (Item × ℚ)) (d : List (Item × Option ℚ)),
      (∀ w ∈ ws, ∃ e ∈ d, e.1 = w.1) →
      List.Pairwise (fun w u : Item × ℚ => w.1 ≠ u.1) ws →
      ws.foldl (fun d w => dictSet d w.1 (some w.2)) d =
        d.map (applyWrites ws) := by
  intro ws
  induction ws with
  | nil =>
    intro d _ _
    rw [List.foldl_nil]
    symm
    have hpt : ∀ e ∈ d, applyWrites [] e = e := fun e _ => rfl
    rw [List.map_congr_left hpt]
    simp
  | cons w ws2 ih =>
    intro d hpres hpw
    rw [List.foldl_cons]
    have hset : dictSet d w.1 (some w.2) =
        d.map fun p => if p.1 = w.1 then (p.1, some w.2) else p := by
      unfold dictSet
      rw [if_pos]
      rw [List.any_eq_true]
      obtain ⟨e, he, he1⟩ := hpres w (List.mem_cons_self w ws2)
      exact ⟨e, he, by simpa using he1⟩
    rw [hset]
    rw [ih (d.map fun p => if p.1 = w.1 then (p.1, some w.2) else p) ?_
      (List.pairwise_cons.mp hpw).2]
    · rw [List.map_map]
      apply List.map_congr_left
      intro e _
      by_cases h : e.1 = w.1
      · have hupd : ((fun p : Item × Option ℚ =>
            if p.1 = w.1 then (p.1, some w.2) else p) e) = (e.1, some w.2) := by
          show (if e.1 = w.1 then ((e.1, some w.2) : Item × Option ℚ) else e) =
            (e.1, some w.2)
          rw [if_pos h]
        show applyWrites ws2 ((fun p : Item × Option ℚ =>
            if p.1 = w.1 then (p.1, some w.2) else p) e) =
          applyWrites (w :: ws2) e
        rw [hupd]
        unfold applyWrites
        have hnone : (ws2.find? fun u => u.1 = (e.1, some w.2).1) = none := by
          rw [List.find?_eq_none]
          intro u hu
          simp only [decide_eq_true_eq]
          intro hc
          exact (List.pairwise_cons.mp hpw).1 u hu (by rw [hc, h])
        rw [hnone, List.find?_cons]
        have hd : (decide (w.1 = e.1)) = true := by simpa using h.symm
        rw [hd]
      · have hupd : ((fun p : Item × Option ℚ =>
            if p.1 = w.1 then (p.1, some w.2) else p) e) = e := by
          show (if e.1 = w.1 then ((e.1, some w.2) : Item × Option ℚ) else e) = e
          rw [if_neg h]
        show applyWrites ws2 ((fun p : Item × Option ℚ =>
            if p.1 = w.1 then (p.1, some w.2) else p) e) =
          applyWrites (w :: ws2) e
        rw [hupd]
        unfold applyWrites
        rw [List.find?_cons]
        have hd : (decide (w.1 = e.1)) = false := by
          simpa using fun hc => h hc.symm
        rw [hd]
    · intro u hu
      obtain ⟨e, he, he1⟩ := hpres u (List.mem_cons_of_mem w hu)
      refine ⟨(fun p : Item × Option ℚ =>
          if p.1 = w.1 then (p.1, some w.2) else p) e,
        List.mem_map_of_mem _ he, ?_⟩
      show (if e.1 = w.1 then ((e.1, some w.2) : Item × Option ℚ) else e).1 = u.1
      by_cases h : e.1 = w.1
      · rw [if_pos h]
        exact he1
      · rw [if_neg h]
        exact he1

theorem insertDesc_cons {α : Type} (k : α → ℚ) (a b : α) (l : List α) :
    insertDesc k a (b :: l) =
      if k b < k a then a :: b :: l else b :: insertDesc k a l := rfl

theorem insertDesc_map_fst {α β : Type} (k : α → ℚ) (a : α × β) :
    ∀ l : List (α × β),
      (insertDesc (fun p => k p.1) a l).map Prod.fst =
        insertDesc k a.1 (l.map Prod.fst) := by
  intro l
  induction l with
  | nil => rfl
  | cons b t ih =>
    rw [List.map_cons, insertDesc_cons, insertDesc_cons]
    by_cases h : k b.1 < k a.1
    · rw [if_pos h, if_pos h, List.map_cons, List.map_cons]
    · rw [if_neg h, if_neg h, List.map_cons, ih]

theorem sortDesc_foldl_map_fst {α β : Type} (k : α → ℚ) :
    ∀ (l acc : List (α × β)),
      (l.foldl (fun acc a => insertDesc (fun p => k p.1) a acc) acc).map
          Prod.fst =
        (l.map Prod.fst).foldl (fun acc a => insertDesc k a acc)
          (acc.map Prod.fst) := by
  intro l
  induction l with
  | nil => intro acc; rfl
  | cons a t ih =>
    intro acc
    rw [List.foldl_cons, List.map_cons, List.foldl_cons, ih,
      insertDesc_map_fst]

theorem sortDesc_map_fst {α β : Type} (k : α → ℚ) (l : List (α × β)) :
    (sortDesc (fun p => k p.1) l).map Prod.fst = sortDesc k (l.map Prod.fst) := by
  unfold sortDesc
  exact sortDesc_foldl_map_fst k l []

theorem taggedUnfixed_fst_aux :
    ∀ (items : List Item) (dec : BranchingDecisions) (n : ℕ),
      ((((items.enumFrom n).zip dec).filter fun p => p.2 = none).map
          fun p => p.1.2) =
        (((items.zip dec).filter fun p => p.2 = none).map fun p => p.1) := by
  intro items
  induction items with
  | nil => intro dec n; rfl
  | cons a t ih =>
    intro dec n
    cases dec with
    | nil => rfl
    | cons od dt =>
      rw [List.enumFrom_cons, List.zip_cons_cons, List.zip_cons_cons,
        List.filter_cons, List.filter_cons]
      by_cases h : od = none
      · rw [if_pos (by simpa using h), if_pos (by simpa using h),
          List.map_cons, List.map_cons, ih dt (n + 1)]
      · rw [if_neg (by simpa using h), if_neg (by simpa using h), ih dt (n + 1)]

theorem taggedUnfixed_fst (inst : Instance) (dec : BranchingDecisions) :
    (taggedUnfixed inst dec).map Prod.fst =
      (((inst.items.zip dec).filter fun p => p.2 = none).map fun p => p.1) := by
  unfold taggedUnfixed
  rw [List.map_map]
  have : (Prod.fst ∘ fun p : (ℕ × Item) × Option Bool => (p.1.2, p.1.1)) =
      fun p : (ℕ × Item) × Option Bool => p.1.2 := rfl
  rw [this, List.enum_eq_enumFrom, taggedUnfixed_fst_aux inst.items dec 0]

theorem enumFrom_fst_le {α : Type} :
    ∀ (l : List α) (m : ℕ), ∀ q ∈ l.enumFrom m, m ≤ q.1 := by
  intro l
  induction l with
  | nil => intro m q hq; simp at hq
  | cons a t ih =>
    intro m q hq
    rw [List.enumFrom_cons] at hq
    rcases List.mem_cons.mp hq with rfl | hqt
    · exact le_refl m
    · exact le_of_lt (lt_of_lt_of_le (Nat.lt_succ_self m) (ih (m + 1) q hqt))

theorem pairwise_enumFrom_fst {α : Type} :
    ∀ (l : List α) (m : ℕ),
      List.Pairwise (fun p q : ℕ × α => p.1 < q.1) (l.enumFrom m) := by
  intro l
  induction l with
  | nil => intro m; simp
  | cons a t ih =>
    intro m
    rw [List.enumFrom_cons]
    refine List.Pairwise.cons ?_ (ih (m + 1))
    intro q hq
    exact lt_of_lt_of_le (Nat.lt_succ_self m) (enumFrom_fst_le t (m + 1) q hq)

theorem taggedUnfixed_tags (inst : Instance) (dec : BranchingDecisions) :
    List.Pairwise (fun p q : Item × ℕ => p.2 < q.2)
      (taggedUnfixed inst dec) := by
  unfold taggedUnfixed
  rw [List.pairwise_map]
  refine List.Pairwise.filter _ ?_
  have h := pairwise_zip_left (inst.items.enum) dec
    (pairwise_enumFrom_fst inst.items 0)
  exact h.imp (fun hpq => hpq)

theorem insertDesc_stable {α : Type} (k : α → ℚ) (t : α → ℕ) (a : α) :
    ∀ l : List α,
      List.Pairwise (fun p q => k q < k p ∨ (k p = k q ∧ t p < t q)) l →
      (∀ b ∈ l, t b < t a) →
      List.Pairwise (fun p q => k q < k p ∨ (k p = k q ∧ t p < t q))
        (insertDesc k a l) := by
  intro l
  induction l with
  | nil =>
    intro _ _
    show List.Pairwise _ [a]
    simp
  | cons b l2 ih =>
    intro hpw htags
    rw [insertDesc_cons]
    by_cases h : k b < k a
    · rw [if_pos h]
      refine List.Pairwise.cons ?_ hpw
      intro c hc
      rcases List.mem_cons.mp hc with rfl | hc2
      · exact Or.inl h
      · rcases (List.pairwise_cons.mp hpw).1 c hc2 with hlt | ⟨heq, _⟩
        · exact Or.inl (lt_trans hlt h)
        · exact Or.inl (by rw [← heq]; exact h)
    · rw [if_neg h]
      refine List.Pairwise.cons ?_ (ih (List.pairwise_cons.mp hpw).2
        (fun c hc => htags c (List.mem_cons_of_mem b hc)))
      intro c hc
      have hc3 := ((insertDesc_perm k a l2).mem_iff).mp hc
      rcases List.mem_cons.mp hc3 with rfl | hc2
      · push_neg at h
        rcases lt_or_eq_of_le h with hlt | heq
        · exact Or.inl hlt
        · exact Or.inr ⟨heq.symm, htags b (List.mem_cons_self b l2)⟩
      · exact (List.pairwise_cons.mp hpw).1 c hc2

theorem sortDesc_foldl_stable {α : Type} (k : α → ℚ) (t : α → ℕ) :
    ∀ (l acc : List α),
      List.Pairwise (fun p q => t p < t q) l →
      List.Pairwise (fun p q => k q < k p ∨ (k p = k q ∧ t p < t q)) acc →
      (∀ b ∈ acc, ∀ a ∈ l, t b < t a) →
      List.Pairwise (fun p q => k q < k p ∨ (k p = k q ∧ t p < t q))
        (l.foldl (fun acc a => insertDesc k a acc) acc) := by
  intro l
  induction l with
  | nil => intro acc _ hacc _; exact hacc
  | cons a l2 ih =>
    intro acc hl hacc htags
    rw [List.foldl_cons]
    refine ih (insertDesc k a acc) (List.pairwise_cons.mp hl).2
      (insertDesc_stable k t a acc hacc
        (fun b hb => htags b hb a (List.mem_cons_self a l2))) ?_
    intro b hb a2 ha2
    rcases List.mem_cons.mp (((insertDesc_perm k a acc).mem_iff).mp hb) with
      rfl | hb2
    · exact (List.pairwise_cons.mp hl).1 a2 ha2
    · exact htags b hb2 a2 (List.mem_cons_of_mem a ha2)

theorem sortDesc_stable {α : Type} (k : α → ℚ) (t : α → ℕ) (l : List α)
    (hl : List.Pairwise (fun p q => t p < t q) l) :
    List.Pairwise (fun p q => k q < k p ∨ (k p = k q ∧ t p < t q))
      (sortDesc k l) := by
  unfold sortDesc
  refine sortDesc_foldl_stable k t l [] hl (by simp) ?_
  intro b hb
  exact (List.not_mem_nil b hb).elim

theorem find_congr_mem {α : Type} (p q : α → Bool) :
    ∀ l : List α, (∀ x ∈ l, p x = q x) → l.find? p = l.find? q := by
  intro l
  induction l with
  | nil => intro _; rfl
  | cons a t ih =>
    intro h
    rw [List.find?_cons, List.find?_cons, h a (List.mem_cons_self a t)]
    cases hq : q a with
    | false => exact ih fun x hx => h x (List.mem_cons_of_mem a hx)
    | true => rfl

theorem applyWrites_of_none (ws : List (Item × ℚ)) (e : Item × Option ℚ)
    (h : (ws.find? fun w => w.1 = e.1) = none) : applyWrites ws e = e := by
  unfold applyWrites
  rw [h]

theorem applyWrites_of_some (ws : List (Item × ℚ)) (e : Item × Option ℚ)
    (w : Item × ℚ) (h : (ws.find? fun u => u.1 = e.1) = some w) :
    applyWrites ws e = (e.1, some w.2) := by
  unfold applyWrites
  rw [h]

theorem taggedUnfixed_mem (inst : Instance) (dec : BranchingDecisions) :
    ∀ q ∈ taggedUnfixed inst dec,
      inst.items[q.2]? = some q.1 ∧ dec[q.2]? = some none := by
  intro q hq
  unfold taggedUnfixed at hq
  obtain ⟨p, hp, hpq⟩ := List.mem_map.mp hq
  have hpf := List.mem_filter.mp hp
  obtain ⟨j, hj, hjp⟩ := List.getElem_of_mem hpf.1
  have hjd : j < dec.length := by
    rw [List.length_zip] at hj
    exact lt_of_lt_of_le hj (min_le_right _ _)
  have hji : j < inst.items.length := by
    have h2 : j < inst.items.enum.length := by
      rw [List.length_zip] at hj
      exact lt_of_lt_of_le hj (min_le_left _ _)
    simpa using h2
  have hjze : j < inst.items.enum.length := by simpa using hji
  have hzpj : (inst.items.enum.zip dec)[j] = (inst.items.enum[j], dec[j]) :=
    List.getElem_zip
  have henj : inst.items.enum[j] = (j, inst.items[j]) := by simp
  have hp1 : p.1 = (j, inst.items[j]) := by
    rw [← hjp]
    exact (congrArg Prod.fst hzpj).trans henj
  have hp2 : p.2 = dec[j] := by
    rw [← hjp]
    exact congrArg Prod.snd hzpj
  have hq1 : q.1 = inst.items[j] := by rw [← hpq, hp1]
  have hq2 : q.2 = j := by rw [← hpq, hp1]
  constructor
  · rw [hq2, List.getElem?_eq_getElem hji, hq1]
  · rw [hq2, List.getElem?_eq_getElem hjd]
    have hdn : dec[j] = none := by
      rw [← hp2]
      simpa using hpf.2
    rw [hdn]

theorem writes_keys_present (inst : Instance) (dec : BranchingDecisions)
    (adj : ℚ) :
    ∀ w ∈ greedyWrites (sortDesc density (((inst.items.zip dec).filter
          fun p => p.2 = none).map fun p => p.1)) adj,
      ∃ e ∈ (inst.items.zip dec).map fun p => (p.1, decVal p.2), e.1 = w.1 := by
  intro w hw
  have hw1 : w.1 ∈ sortDesc density (((inst.items.zip dec).filter
      fun p => p.2 = none).map fun p => p.1) := by
    have h2 := List.mem_map_of_mem Prod.fst hw
    rwa [greedyWrites_fst] at h2
  have hw2 := ((sortDesc_perm density _).mem_iff).mp hw1
  obtain ⟨p, hp, hp1⟩ := List.mem_map.mp hw2
  exact ⟨(p.1, decVal p.2),
    List.mem_map_of_mem _ (List.mem_of_mem_filter hp), hp1⟩

theorem unfixed_nodup (inst : Instance) (dec : BranchingDecisions)
    (hnd : inst.items.Nodup) (hlen : inst.items.length = dec.length) :
    ((((inst.items.zip dec).filter fun p => p.2 = none).map
      fun p => p.1)).Nodup := by
  have hs : List.Sublist ((inst.items.zip dec).filter fun p => p.2 = none)
      (inst.items.zip dec) := List.filter_sublist _
  have hs2 : List.Sublist
      ((((inst.items.zip dec).filter fun p => p.2 = none)).map fun p => p.1)
      ((inst.items.zip dec).map fun p => p.1) := hs.map _
  have hbig : (((inst.items.zip dec)).map fun p => p.1).Nodup := by
    have h3 : ((inst.items.zip dec).map Prod.fst) = inst.items :=
      List.map_fst_zip _ _ (le_of_eq hlen)
    have h4 : ((inst.items.zip dec).map fun p => p.1) =
        ((inst.items.zip dec).map Prod.fst) := rfl
    rw [h4, h3]
    exact hnd
  exact hbig.sublist hs2

theorem writes_keys_pairwise (inst : Instance) (dec : BranchingDecisions)
    (hnd : inst.items.Nodup) (hlen : inst.items.length = dec.length)
    (adj : ℚ) :
    List.Pairwise (fun w u : Item × ℚ => w.1 ≠ u.1)
      (greedyWrites (sortDesc density (((inst.items.zip dec).filter
        fun p => p.2 = none).map fun p => p.1)) adj) := by
  have hsortnd : (sortDesc density (((inst.items.zip dec).filter
      fun p => p.2 = none).map fun p => p.1)).Nodup :=
    ((sortDesc_perm density _).nodup_iff).mpr (unfixed_nodup inst dec hnd hlen)
  have h1 : ((greedyWrites (sortDesc density (((inst.items.zip dec).filter
      fun p => p.2 = none).map fun p => p.1)) adj).map Prod.fst).Nodup := by
    rw [greedyWrites_fst]
    exact hsortnd
  exact List.pairwise_map.mp h1

theorem fracOrder_fst (inst : Instance) (dec : BranchingDecisions) :
    (myFracOrder inst dec).map Prod.fst =
      sortDesc density (((inst.items.zip dec).filter fun p => p.2 = none).map
        fun p => p.1) := by
  unfold myFracOrder
  rw [sortDesc_map_fst, taggedUnfixed_fst]

theorem applyWrites_fixed (inst : Instance) (dec : BranchingDecisions)
    (hnd : inst.items.Nodup) (hlen : inst.items.length = dec.length)
    (adj : ℚ) (i : ℕ) (b : Bool) (hii : i < inst.items.length)
    (hdeq : dec[i]? = some (some b)) :
    applyWrites (greedyWrites (sortDesc density (((inst.items.zip dec).filter
        fun p => p.2 = none).map fun p => p.1)) adj)
      (inst.items[i], decVal (some b)) = (inst.items[i], decVal (some b)) := by
  apply applyWrites_of_none
  rw [List.find?_eq_none]
  intro w hw
  simp only [decide_eq_true_eq]
  intro hc
  have hc2 : w.1 = inst.items[i] := hc
  have hw1 : w.1 ∈ sortDesc density (((inst.items.zip dec).filter
      fun p => p.2 = none).map fun p => p.1) := by
    have h2 := List.mem_map_of_mem Prod.fst hw
    rwa [greedyWrites_fst] at h2
  have hw2 := ((sortDesc_perm density _).mem_iff).mp hw1
  obtain ⟨p, hp, hp1⟩ := List.mem_map.mp hw2
  have hpf := List.mem_filter.mp hp
  obtain ⟨j, hj, hjp⟩ := List.getElem_of_mem hpf.1
  have hji : j < inst.items.length := by
    rw [List.length_zip, ← hlen] at hj
    simpa using hj
  have hjd : j < dec.length := by rw [← hlen]; exact hji
  have hzpj : (inst.items.zip dec)[j] = (inst.items[j], dec[j]) :=
    List.getElem_zip
  have hp1j : p.1 = inst.items[j] := by
    rw [← hjp]
    exact congrArg Prod.fst hzpj
  have hp2j : p.2 = dec[j] := by
    rw [← hjp]
    exact congrArg Prod.snd hzpj
  have hij : inst.items[j] = inst.items[i] := by
    rw [← hp1j, hp1]
    exact hc2
  have hji2 : j = i := (List.Nodup.getElem_inj_iff hnd).mp hij
  subst hji2
  have hdn : dec[j] = none := by
    rw [← hp2j]
    simpa using hpf.2
  obtain ⟨h5, h6⟩ := List.getElem?_eq_some_iff.mp hdeq
  rw [hdn] at h6
  exact Option.noConfusion h6

theorem applyWrites_unfixed (inst : Instance) (dec : BranchingDecisions)
    (hnd : inst.items.Nodup) (hlen : inst.items.length = dec.length)
    (adj : ℚ) (i : ℕ) (hii : i < inst.items.length) :
    (applyWrites (greedyWrites (sortDesc density (((inst.items.zip dec).filter
        fun p => p.2 = none).map fun p => p.1)) adj)
      (inst.items[i], decVal none)).2 =
      ((greedyAssign (myFracOrder inst dec) adj).find?
        fun a => decide (a.1.2 = i)).map fun a => a.2 := by
  have hWG : greedyWrites (sortDesc density (((inst.items.zip dec).filter
      fun p => p.2 = none).map fun p => p.1)) adj =
      (greedyAssign (myFracOrder inst dec) adj).map fun a => (a.1.1, a.2) := by
    rw [← fracOrder_fst inst dec, greedyWrites_of_assign]
  have hfind : ((greedyWrites (sortDesc density (((inst.items.zip dec).filter
      fun p => p.2 = none).map fun p => p.1)) adj).find?
      fun w => w.1 = (inst.items[i], decVal none).1) =
      ((greedyAssign (myFracOrder inst dec) adj).find?
        fun a => decide (a.1.2 = i)).map fun a => (a.1.1, a.2) := by
    rw [hWG, List.find?_map]
    congr 1
    apply find_congr_mem
    intro a ha
    have ha1 : a.1 ∈ myFracOrder inst dec := by
      have h2 := List.mem_map_of_mem Prod.fst ha
      rwa [greedyAssign_fst] at h2
    have ha2 := ((sortDesc_perm (fun p : Item × ℕ => density p.1)
      (taggedUnfixed inst dec)).mem_iff).mp ha1
    obtain ⟨hq1, hq2⟩ := taggedUnfixed_mem inst dec a.1 ha2
    show decide (a.1.1 = (inst.items[i], decVal none).1) = decide (a.1.2 = i)
    rw [decide_eq_decide]
    constructor
    · intro hc
      have hc2 : a.1.1 = inst.items[i] := hc
      obtain ⟨hb2, hv⟩ := List.getElem?_eq_some_iff.mp hq1
      exact (List.Nodup.getElem_inj_iff hnd).mp (by rw [hv, hc2])
    · intro hc
      rw [hc, List.getElem?_eq_getElem hii] at hq1
      exact (Option.some.inj hq1).symm
  cases hG : (greedyAssign (myFracOrder inst dec) adj).find?
      fun a => decide (a.1.2 = i) with
  | none =>
    rw [applyWrites_of_none _ _ (by rw [hfind, hG]; rfl)]
    rfl
  | some a =>
    rw [applyWrites_of_some _ _ ((fun a => ((a.1.1, a.2) : Item × ℚ)) a)
      (by rw [hfind, hG]; rfl)]
    rfl

theorem mapped_dict_get (W : List (Item × ℚ))
    (zp : List (Item × Option Bool)) (i : ℕ) (hi : i < zp.length) :
    (((zp.map fun p => (p.1, decVal p.2)).map (applyWrites W)).map
      fun p => p.2)[i]? = some ((applyWrites W (zp[i].1, decVal zp[i].2)).2) := by
  rw [List.getElem?_map, List.getElem?_map, List.getElem?_map,
    List.getElem?_eq_getElem hi]
  rfl

theorem mySolve_elim (inst : Instance) (dec : BranchingDecisions)
    (hnd : inst.items.Nodup) (hlen : inst.items.length = dec.length)
    (hcap : ¬ fixedOneWeight inst dec > inst.capacity)
    (hwnz : ∀ p ∈ inst.items.zip dec, p.2 = none → p.1.weight ≠ 0) :
    MyRelaxationSolver.solve inst dec = some (.sol
      (((sortDesc density (((inst.items.zip dec).filter
            fun p => p.2 = none).map fun p => p.1)).foldl
          (myGreedyStep (inst.capacity - fixedOneWeight inst dec))
          (0, (((inst.items.zip dec).filter fun p => p.2 = some true).map
            fun p => p.1.value).sum, false,
            (inst.items.zip dec).map fun p => (p.1, decVal p.2))).2.2.2.map
        fun p => p.2)
      (((sortDesc density (((inst.items.zip dec).filter
            fun p => p.2 = none).map fun p => p.1)).foldl
          (myGreedyStep (inst.capacity - fixedOneWeight inst dec))
          (0, (((inst.items.zip dec).filter fun p => p.2 = some true).map
            fun p => p.1.value).sum, false,
            (inst.items.zip dec).map fun p => (p.1, decVal p.2))).2.1)) := by
  simp only [MyRelaxationSolver.solve]
  rw [if_neg hcap]
  have hdict : (inst.items.zip dec).foldl
      (fun d p => dictSet d p.1 (decVal p.2)) [] =
      (inst.items.zip dec).map fun p => (p.1, decVal p.2) := by
    have h := dict_fold_fresh (inst.items.zip dec) []
      (zip_fst_pairwise inst.items dec hnd)
      (by intro p _ e he; simp at he)
    simpa using h
  rw [hdict, classify_assoc inst.items dec ([], [], []) hnd (le_of_eq hlen)]
  simp only [List.nil_append]
  have hany : ((((inst.items.zip dec).filter fun p => p.2 = none).map
      fun p => p.1).any fun it => decide (it.weight = 0)) = false := by
    rw [List.any_eq_false]
    intro it hit
    obtain ⟨p, hp, hp2⟩ := List.mem_map.mp hit
    have hpf := List.mem_filter.mp hp
    simp only [decide_eq_true_eq]
    intro h0
    exact hwnz p hpf.1 (by simpa using hpf.2) (by rw [hp2]; exact h0)
  rw [if_neg (by rw [hany]; exact Bool.false_ne_true)]
  simp only [List.map_map]
  rfl

/-- C3 (amended): for a validated instance with pairwise-distinct items,
decisions aligned with the items, fitting fixed-1 items and no zero-weight
undecided item, MyRelaxationSolver sorts the undecided items by descending
value/weight ratio (stably, so ties keep their original order), assigns 1.0
while the remaining capacity allows, a fractional amount to the first
overflowing item and 0.0 afterwards, keeps every fixed decision at 0/1 in the
returned selection, and reports the fixed-1 value plus the (possibly
fractional) assigned value as the upper bound.  On equal items the dict
collapses and all of this fails, hence the distinctness hypothesis. -/
theorem mySolver_fractional_characterization (inst : Instance)
    (dec : BranchingDecisions)
    (hnd : inst.items.Nodup) (hlen : inst.items.length = dec.length)
    (hcap : ¬ fixedOneWeight inst dec > inst.capacity)
    (hwnz : ∀ p ∈ inst.items.zip dec, p.2 = none → p.1.weight ≠ 0) :
    (myFracOrder inst dec).Perm (taggedUnfixed inst dec) ∧
    List.Pairwise
      (fun p q : Item × ℕ => density q.1 < density p.1 ∨
        (density p.1 = density q.1 ∧ p.2 < q.2)) (myFracOrder inst dec) ∧
    ∃ sel,
      MyRelaxationSolver.solve inst dec = some (.sol sel
        ((((inst.items.zip dec).filter fun p => p.2 = some true).map
            fun p => p.1.value).sum +
          ((greedyAssign (myFracOrder inst dec)
              (inst.capacity - fixedOneWeight inst dec)).map
            fun a => a.2 * a.1.1.value).sum)) ∧
      sel.length = inst.items.length ∧
      (∀ i : ℕ, ∀ b : Bool, dec[i]? = some (some b) →
        sel[i]? = some (some (if b then (1:ℚ) else 0))) ∧
      (∀ i : ℕ, dec[i]? = some none →
        sel[i]? = some (((greedyAssign (myFracOrder inst dec)
            (inst.capacity - fixedOneWeight inst dec)).find?
          fun a => decide (a.1.2 = i)).map fun a => a.2)) := by
  have hzlen : (inst.items.zip dec).length = inst.items.length := by
    rw [List.length_zip, ← hlen]
    exact min_self _
  have hperm : (myFracOrder inst dec).Perm (taggedUnfixed inst dec) :=
    sortDesc_perm _ _
  refine ⟨hperm, sortDesc_stable (fun p : Item × ℕ => density p.1) Prod.snd
    (taggedUnfixed inst dec) (taggedUnfixed_tags inst dec), ?_⟩
  rw [mySolve_elim inst dec hnd hlen hcap hwnz]
  have hpres := writes_keys_present inst dec
    (inst.capacity - fixedOneWeight inst dec)
  have hpw := writes_keys_pairwise inst dec hnd hlen
    (inst.capacity - fixedOneWeight inst dec)
  have hdfin : (((sortDesc density (((inst.items.zip dec).filter
        fun p => p.2 = none).map fun p => p.1)).foldl
      (myGreedyStep (inst.capacity - fixedOneWeight inst dec))
      (0, (((inst.items.zip dec).filter fun p => p.2 = some true).map
        fun p => p.1.value).sum, false,
        (inst.items.zip dec).map fun p => (p.1, decVal p.2))).2.2.2) =
      ((inst.items.zip dec).map fun p => (p.1, decVal p.2)).map
        (applyWrites (greedyWrites (sortDesc density
          (((inst.items.zip dec).filter fun p => p.2 = none).map fun p => p.1))
          (inst.capacity - fixedOneWeight inst dec))) := by
    rw [myGreedy_fold_dict, sub_zero]
    exact foldl_dictSet_writes _ _ hpres hpw
  have hvs : (((sortDesc density (((inst.items.zip dec).filter
        fun p => p.2 = none).map fun p => p.1)).foldl
      (myGreedyStep (inst.capacity - fixedOneWeight inst dec))
      (0, (((inst.items.zip dec).filter fun p => p.2 = some true).map
        fun p => p.1.value).sum, false,
        (inst.items.zip dec).map fun p => (p.1, decVal p.2))).2.1) =
      (((inst.items.zip dec).filter fun p => p.2 = some true).map
        fun p => p.1.value).sum +
      ((greedyAssign (myFracOrder inst dec)
        (inst.capacity - fixedOneWeight inst dec)).map
        fun a => a.2 * a.1.1.value).sum := by
    rw [myGreedy_fold_vs, sub_zero, greedyAssign_value, fracOrder_fst]
  rw [hdfin, hvs]
  refine ⟨_, rfl, ?_, ?_, ?_⟩
  · simp only [List.length_map]
    exact hzlen
  · intro i b hdi
    obtain ⟨hid, hdeq⟩ := List.getElem?_eq_some_iff.mp hdi
    have hii : i < inst.items.length := by rw [hlen]; exact hid
    have hiz : i < (inst.items.zip dec).length := by rw [hzlen]; exact hii
    rw [mapped_dict_get _ _ i hiz]
    have hzpi : (inst.items.zip dec)[i] = (inst.items[i], dec[i]) :=
      List.getElem_zip
    rw [hzpi, hdeq]
    show some ((applyWrites _ (inst.items[i], decVal (some b))).2) = _
    rw [applyWrites_fixed inst dec hnd hlen _ i b hii hdi]
    cases b
    · rfl
    · rfl
  · intro i hdi
    obtain ⟨hid, hdeq⟩ := List.getElem?_eq_some_iff.mp hdi
    have hii : i < inst.items.length := by rw [hlen]; exact hid
    have hiz : i < (inst.items.zip dec).length := by rw [hzlen]; exact hii
    rw [mapped_dict_get _ _ i hiz]
    have hzpi : (inst.items.zip dec)[i] = (inst.items[i], dec[i]) :=
      List.getElem_zip
    rw [hzpi, hdeq]
    show some ((applyWrites _ (inst.items[i], decVal none)).2) = _
    rw [applyWrites_unfixed inst dec hnd hlen _ i hii]

/-- Witness for C3: two distinct items (value 1, weight 2) and (value 3,
weight 1), capacity 2, both undecided; the stable ratio order, the returned
selection and the fractional bound are as characterized. -/
theorem mySolver_fractional_characterization_witness :
    (myFracOrder ⟨[⟨1,2⟩,⟨3,1⟩],2⟩ [none, none]).Perm
      (taggedUnfixed ⟨[⟨1,2⟩,⟨3,1⟩],2⟩ [none, none]) ∧
    List.Pairwise
      (fun p q : Item × ℕ => density q.1 < density p.1 ∨
        (density p.1 = density q.1 ∧ p.2 < q.2))
      (myFracOrder ⟨[⟨1,2⟩,⟨3,1⟩],2⟩ [none, none]) ∧
    ∃ sel,
      MyRelaxationSolver.solve ⟨[⟨1,2⟩,⟨3,1⟩],2⟩ [none, none] = some (.sol sel
        ((((([⟨1,2⟩,⟨3,1⟩] : List Item).zip ([none, none] : BranchingDecisions)).filter
            fun p => p.2 = some true).map fun p => p.1.value).sum +
          ((greedyAssign (myFracOrder ⟨[⟨1,2⟩,⟨3,1⟩],2⟩ [none, none])
              ((2:ℚ) - fixedOneWeight ⟨[⟨1,2⟩,⟨3,1⟩],2⟩ [none, none])).map
            fun a => a.2 * a.1.1.value).sum)) ∧
      sel.length = 2 ∧
      (∀ i : ℕ, ∀ b : Bool,
        (([none, none] : BranchingDecisions))[i]? = some (some b) →
        sel[i]? = some (some (if b then (1:ℚ) else 0))) ∧
      (∀ i : ℕ, (([none, none] : BranchingDecisions))[i]? = some none →
        sel[i]? = some (((greedyAssign
            (myFracOrder ⟨[⟨1,2⟩,⟨3,1⟩],2⟩ [none, none])
            ((2:ℚ) - fixedOneWeight ⟨[⟨1,2⟩,⟨3,1⟩],2⟩ [none, none])).find?
          fun a => decide (a.1.2 = i)).map fun a => a.2)) :=
  mySolver_fractional_characterization ⟨[⟨1,2⟩,⟨3,1⟩],2⟩ [none, none]
    (by norm_num [List.nodup_cons, Item.mk.injEq])
    (by norm_num)
    (by
      rw [show fixedOneWeight ⟨[⟨1,2⟩,⟨3,1⟩],2⟩ [none, none] = 0 from rfl]
      show ¬ (0:ℚ) > 2
      norm_num)
    (by
      intro p hp h1
      simp only [List.zip_cons_cons, List.zip_nil_right] at hp
      fin_cases hp <;> norm_num)

/-! Concrete evaluations: counterexamples and failing inputs.  The proofs
unfold the embedded functions over the literal inputs with simp and close the
rational arithmetic with norm_num. -/

set_option maxRecDepth 16000
set_option maxHeartbeats 2000000

/-- C1: on the rounding branch the heuristic can return a solution violating
the capacity constraint.  Input: items [(1,10),(1,2)], capacity 1, relaxed
selection [0, 1/2] (weight 1, within capacity, not integral).  The code zeroes
the fractional entry, then unconditionally sets entry 0 to 1 (its best-item
scan compares `is None` on numeric entries and never fires), producing
selection [1,0] of weight 10 > 1.  This contradicts the Heuristics contract
that every produced solution is feasible. -/
theorem myHeuristic_returns_capacity_violating_solution :
    MyHeuristic.search ⟨[⟨1,10⟩,⟨1,2⟩],1⟩ [0, 1/2] (1/2) =
      (some [([1,0],1)], ([1,0], 1/2)) ∧
    obeysCapacity ⟨[⟨1,10⟩,⟨1,2⟩],1⟩ [0, 1/2] = true ∧
    isIntegral [0, 1/2] = false ∧
    obeysCapacity ⟨[⟨1,10⟩,⟨1,2⟩],1⟩ [1, 0] = false := by
  refine ⟨?_, ?_, ?_, ?_⟩ <;>
    norm_num [MyHeuristic.search, obeysCapacity, isIntegral, selWeight, pyInt,
      List.findIdx?_cons, Int.tdiv, List.zip_cons_cons]

/-- C2 counterexample: with two equal items the dict built over item keys
collapses, and the returned upper bound 0 is smaller than the objective 1 of
the feasible completion [true, false] consistent with decisions [1, 0]. -/
theorem mySolver_bound_unsound_on_equal_items :
    Instance.valid ⟨[⟨1,1⟩,⟨1,1⟩],10⟩ ∧
    consistent [some true, some false] [true, false] ∧
    boolWeight ⟨[⟨1,1⟩,⟨1,1⟩],10⟩ [true, false] ≤ (10:ℚ) ∧
    boolValue ⟨[⟨1,1⟩,⟨1,1⟩],10⟩ [true, false] = 1 ∧
    MyRelaxationSolver.solve ⟨[⟨1,1⟩,⟨1,1⟩],10⟩ [some true, some false] =
      some (.sol [some 0] 0) ∧
    ¬ ((1:ℚ) : WithBot ℚ) ≤ (RelaxResult.sol (α := Option ℚ) [some 0] 0).ubound := by
  refine ⟨⟨?_, ?_⟩, ?_, ?_, ?_, ?_, ?_⟩
  · intro it hit; fin_cases hit <;> norm_num
  · norm_num
  · intro p hp b hb; fin_cases hp <;> simp_all
  · norm_num [boolWeight]
  · norm_num [boolValue]
  · try (norm_num [MyRelaxationSolver.solve, fixedOneWeight, dictSet, dictGet, decVal,
      classifyStep, sortDesc, insertDesc, density, myGreedyStep,
      List.foldl_cons, List.foldl_nil, List.zip_cons_cons, List.zip_nil_right,
      List.filter_cons, List.find?_cons, List.any_cons, List.map_cons, List.map_nil,
      List.sum_cons, List.sum_nil, List.append_nil, List.nil_append, List.cons_append,
      decide_eq_true_eq, reduceCtorEq, if_false, if_true])
    try simp
    try norm_num
  · try (norm_num [RelaxResult.ubound])
    try simp
    try norm_num

/-- C3 counterexample: with two equal undecided items whose fixed-1 part fits
capacity, the returned selection has length 1 instead of 2, so it cannot
assign the described value to each undecided item. -/
theorem mySolver_fractional_description_fails_on_equal_items :
    fixedOneWeight ⟨[⟨1,1⟩,⟨1,1⟩],2⟩ [none, none] ≤ (2:ℚ) ∧
    MyRelaxationSolver.solve ⟨[⟨1,1⟩,⟨1,1⟩],2⟩ [none, none] =
      some (.sol [some 1] 2) ∧
    ([some 1] : List (Option ℚ)).length ≠ ([⟨1,1⟩,⟨1,1⟩] : List Item).length := by
  refine ⟨?_, ?_, ?_⟩ <;>
    · try (norm_num [MyRelaxationSolver.solve, fixedOneWeight, dictSet, dictGet, decVal,
        classifyStep, sortDesc, insertDesc, density, myGreedyStep,
        List.foldl_cons, List.foldl_nil, List.zip_cons_cons, List.zip_nil_right,
        List.filter_cons, List.find?_cons, List.any_cons, List.map_cons, List.map_nil,
        List.sum_cons, List.sum_nil, List.append_nil, List.nil_append, List.cons_append,
        decide_eq_true_eq, reduceCtorEq, if_false, if_true])
      try simp
      try norm_num

/-- C4 counterexample: with two equal items and decisions [0, undecided] the
collapsed dict classifies both occurrences as undecided, so the fractional
bound 2 exceeds the naive bound 1. -/
theorem bound_ordering_fails_on_equal_items :
    Instance.valid ⟨[⟨1,1⟩,⟨1,1⟩],10⟩ ∧
    MyRelaxationSolver.solve ⟨[⟨1,1⟩,⟨1,1⟩],10⟩ [some false, none] =
      some (.sol [some 1] 2) ∧
    NaiveRelaxationSolver.solve ⟨[⟨1,1⟩,⟨1,1⟩],10⟩ [some false, none] =
      .sol [0, 1] 1 ∧
    ¬ (RelaxResult.sol (α := Option ℚ) [some 1] 2).ubound ≤
        (RelaxResult.sol (α := ℚ) [0, 1] 1).ubound := by
  refine ⟨⟨?_, ?_⟩, ?_, ?_, ?_⟩
  · intro it hit; fin_cases hit <;> norm_num
  · norm_num
  · try (norm_num [MyRelaxationSolver.solve, fixedOneWeight, dictSet, dictGet, decVal,
      classifyStep, sortDesc, insertDesc, density, myGreedyStep,
      List.foldl_cons, List.foldl_nil, List.zip_cons_cons, List.zip_nil_right,
      List.filter_cons, List.find?_cons, List.any_cons, List.map_cons, List.map_nil,
      List.sum_cons, List.sum_nil, List.append_nil, List.nil_append, List.cons_append,
      decide_eq_true_eq, reduceCtorEq, if_false, if_true])
    try simp
    try norm_num
  · try (norm_num [NaiveRelaxationSolver.solve, fixedOneWeight, selValue,
      List.filter_cons, List.zip_cons_cons, List.zip_nil_right, List.map_cons,
      List.map_nil, List.sum_cons, List.sum_nil,
      decide_eq_true_eq, reduceCtorEq, if_false, if_true])
    try simp
    try norm_num
  · try (norm_num [RelaxResult.ubound])
    try simp
    try norm_num

/-- C5 counterexample: node with undecided decisions, relaxed bound 5 and a
heuristic solution of objective 3 selecting item 0 (ratio 3) and excluding
item 1 (ratio 2); both fit capacity 2.  The claim picks the not-excluded
index 0; the code scans only indices whose heuristic entry is 0 and branches
on index 1. -/
theorem myBranching_picks_heuristic_excluded_index :
    MyBranchingStrategy.make ⟨[⟨3,1⟩,⟨2,1⟩],2⟩ ⟨[none,none], 5, some ([1,0],3)⟩ =
      some (splitOn [none,none] 1) ∧
    splitOn [none,none] 1 ≠ splitOn [none,none] 0 ∧
    (3:ℚ) < ((pyInt 5 : ℤ) : ℚ) ∧ density ⟨3,1⟩ > density ⟨2,1⟩ := by
  refine ⟨?_, ?_, ?_, ?_⟩ <;>
    · try (norm_num [MyBranchingStrategy.make, branchPairs, myBranchStep, fixedOneWeight,
        density, pyInt, Int.tdiv, splitOn, FirstUndecidedBranchingStrategy.make,
        List.foldl_cons, List.foldl_nil, List.zip_cons_cons, List.enum_cons,
        List.enumFrom, List.enum, List.filter_cons, List.findIdx?_cons,
        List.zip_nil_right, List.map_cons, List.map_nil, List.sum_cons, List.sum_nil,
        List.getD, List.getElem?_cons_zero, List.getElem?_cons_succ, Option.getD_some,
        Option.getD_none, reduceCtorEq, if_false, if_true, decide_eq_true_eq])
      try simp
      try norm_num

/-- C6 counterexample: when the items fixed to 1 exceed capacity the very
naive solver still returns an ordinary solution with finite bound 1 (it never
creates the distinguished infeasible solution), while the naive solver does
return it. -/
theorem veryNaive_no_infeasible_check :
    fixedOneWeight ⟨[⟨1,2⟩],1⟩ [some true] > (1:ℚ) ∧
    VeryNaiveRelaxationSolver.solve ⟨[⟨1,2⟩],1⟩ [some true] = ([1], 1) ∧
    NaiveRelaxationSolver.solve ⟨[⟨1,2⟩],1⟩ [some true] = .infeasible := by
  refine ⟨?_, ?_, ?_⟩ <;>
    · try (norm_num [VeryNaiveRelaxationSolver.solve, NaiveRelaxationSolver.solve,
        fixedOneWeight, selValue, List.filter_cons, List.zip_cons_cons,
        List.zip_nil_right, List.map_cons, List.map_nil, List.sum_cons, List.sum_nil,
        decide_eq_true_eq, reduceCtorEq, if_false, if_true])
      try simp
      try norm_num

/-- C7: with two equal items and decisions [1, 0] the item-keyed dict
collapses: the returned selection has length 1 and its only entry is 0,
so the entry fixed to 1 does not propagate and the selection is not aligned
index-by-index with the items. -/
theorem mySolver_misaligns_selection_on_equal_items :
    MyRelaxationSolver.solve ⟨[⟨1,1⟩,⟨1,1⟩],5⟩ [some true, some false] =
      some (.sol [some 0] 0) ∧
    ([some 0] : List (Option ℚ)).length ≠ ([⟨1,1⟩,⟨1,1⟩] : List Item).length := by
  refine ⟨?_, ?_⟩ <;>
    · try (norm_num [MyRelaxationSolver.solve, fixedOneWeight, dictSet, dictGet, decVal,
        classifyStep, sortDesc, insertDesc, density, myGreedyStep,
        List.foldl_cons, List.foldl_nil, List.zip_cons_cons, List.zip_nil_right,
        List.filter_cons, List.find?_cons, List.any_cons, List.map_cons, List.map_nil,
        List.sum_cons, List.sum_nil, List.append_nil, List.nil_append, List.cons_append,
        decide_eq_true_eq, reduceCtorEq, if_false, if_true])
      try simp
      try norm_num

/-- C8 counterexample: the rounding branch writes through the alias
`adj_selection = relaxed.selection`: after the call the input's selection is
[1, 0] instead of the original [0, 1/2] (the upper bound attribute itself is
not reassigned). -/
theorem search_rounding_mutates_input_selection :
    (MyHeuristic.search ⟨[⟨2,10⟩,⟨1,2⟩],1⟩ [0, 1/2] (1/2)).2 = ([1, 0], 1/2) ∧
    ([1, 0] : List ℚ) ≠ [0, 1/2] := by
  refine ⟨?_, ?_⟩ <;>
    norm_num [MyHeuristic.search, obeysCapacity, isIntegral, selWeight, pyInt,
      List.findIdx?_cons, Int.tdiv, List.zip_cons_cons]

/-- C9 counterexample: the instance with a single item of weight 0 is valid
per the spec (non-negative weights), yet MyRelaxationSolver.solve raises
ZeroDivisionError (`none`) computing value/weight in the ratio sort. -/
theorem mySolver_divides_by_zero_on_zero_weight_item :
    Instance.valid ⟨[⟨1,0⟩],0⟩ ∧
    MyRelaxationSolver.solve ⟨[⟨1,0⟩],0⟩ [none] = none := by
  refine ⟨⟨?_, ?_⟩, ?_⟩
  · intro it hit; fin_cases hit <;> norm_num
  · norm_num
  · try (norm_num [MyRelaxationSolver.solve, fixedOneWeight, dictSet, dictGet, decVal,
      classifyStep, sortDesc, insertDesc, density, myGreedyStep,
      List.foldl_cons, List.foldl_nil, List.zip_cons_cons, List.zip_nil_right,
      List.filter_cons, List.find?_cons, List.any_cons, List.map_cons, List.map_nil,
      List.sum_cons, List.sum_nil, List.append_nil, List.nil_append, List.cons_append,
      decide_eq_true_eq, reduceCtorEq, if_false, if_true])
    try simp
    try norm_num

/-! Witnesses instantiating the hypothesised theorems at concrete inputs. -/

/-- Witness for C6: one item of weight 4 fixed to 1 with capacity 2. -/
theorem naive_and_my_infeasible_on_fixed_overflow_witness :
    fixedOneWeight ⟨[⟨3,4⟩],2⟩ [some true] > (2:ℚ) ∧
    NaiveRelaxationSolver.solve ⟨[⟨3,4⟩],2⟩ [some true] = .infeasible := by
  have h : fixedOneWeight ⟨[⟨3,4⟩],2⟩ [some true] > (2:ℚ) := by
    try (norm_num [fixedOneWeight, List.filter_cons, List.zip_cons_cons,
      List.zip_nil_right, List.map_cons, List.map_nil, List.sum_cons, List.sum_nil,
      decide_eq_true_eq, reduceCtorEq, if_false, if_true])
    try simp
    try norm_num
  exact ⟨h, (naive_and_my_infeasible_on_fixed_overflow ⟨[⟨3,4⟩],2⟩ [some true] h).1⟩

/-- Witness for C10: decisions [1, undecided, undecided]; the first undecided
index is 1 and the two children fix it to 0 and 1. -/
theorem firstUndecided_branching_correct_witness :
    (([some true, none, none] : BranchingDecisions)[1]? = some none) ∧
    FirstUndecidedBranchingStrategy.make ⟨[some true, none, none], 0, none⟩ =
      [[some true, some false, none], [some true, some true, none]] := by
  have h := (firstUndecided_branching_correct ⟨[some true, none, none], 0, none⟩).2 1
    (by decide) (by intro j hj; interval_cases j <;> decide)
  exact ⟨by decide, by rw [h.1]; decide⟩

/-- Witness for C8: a capacity-violating input is returned to the caller
untouched. -/
theorem search_frame_conditions_witness :
    (MyHeuristic.search ⟨[⟨1,1⟩],0⟩ [1] 1).2 = ([1], 1) := by
  refine (search_frame_conditions ⟨[⟨1,1⟩],0⟩ [1] 1).2.1 ?_
  try (norm_num [obeysCapacity, selWeight, List.zip_cons_cons, List.zip_nil_right,
    List.map_cons, List.map_nil, List.sum_cons, List.sum_nil,
    decide_eq_false_iff_not])
  try simp
  try norm_num

/-- Witness for C9: with a positive-weight item both operations return. -/
theorem no_division_by_zero_on_positive_weights_witness :
    (MyRelaxationSolver.solve ⟨[⟨1,2⟩],3⟩ [none]).isSome ∧
    (MyBranchingStrategy.make ⟨[⟨1,2⟩],3⟩ ⟨[none], 0, none⟩).isSome :=
  no_division_by_zero_on_positive_weights ⟨[⟨1,2⟩],3⟩ ⟨[none], 0, none⟩
    (by intro it hit; fin_cases hit <;> norm_num)

end KnapsackBnB
